import Mathlib

/-!
Verification of the certificate-hierarchy core (`src/hierarchy.cpp`).

The embedding keeps the source structure: `is_issuer`, `prune_duplicates`,
`mark_issuer`, `break_loop`, `find_loop`, `find_and_break_loops` and
`compute_hierarchy` are translated one-to-one.  Certificates are records of
the fields the core inspects; distinguished names are abstracted to `Nat`
(only compared for equality), byte strings to `List Nat`.  The signature
verifier `x509_verify_signature` is an external black box and is passed in
as a boolean-valued parameter.  Graph nodes are identified by their index in
the certificate vector; the `std::set` of pointers of the source becomes a
duplicate-free `List Nat` of indices (set insert / set erase semantics).
The unbounded C++ recursion of `find_loop` and the `while(1)` repair loop
are given explicit fuel; sufficiency of the fuel supplied at the call sites
is proved, which is the termination content of the source.
-/

/-- One parsed certificate, restricted to the fields `hierarchy.cpp` reads:
the raw DER encoding (duplicate test), subject and issuer names (equality
test), and the two key-identifier extensions.  `akid = none` models a child
without an AuthorityKeyIdentifier extension; `akid = some k` models the
extension being present with `key_identifier = k` (possibly empty).
`skid` likewise models presence of the SubjectKeyIdentifier extension. -/
structure Certificate where
  der_bytes : List Nat
  subject : Nat
  issuer : Nat
  akid : Option (List Nat)
  skid : Option (List Nat)
deriving DecidableEq, Repr

/-- Translation of `is_issuer` (hierarchy.cpp:28-68).  `verify` is the
external `x509_verify_signature` collaborator. -/
def is_issuer (verify : Certificate → Certificate → Bool)
    (cert_issuer cert_child : Certificate) : Bool :=
  if cert_issuer.subject ≠ cert_child.issuer then
    false
  else
    match cert_child.akid with
    | some kid =>
      if kid.length ≠ 0 then
        match cert_issuer.skid with
        | none => false
        | some sk =>
          if sk ≠ kid then false
          else verify cert_issuer cert_child
      else verify cert_issuer cert_child
    | none => verify cert_issuer cert_child

/-- Translation of `is_self_signed` (hierarchy.cpp:70-73). -/
def is_self_signed (verify : Certificate → Certificate → Bool)
    (cert : Certificate) : Bool :=
  is_issuer verify cert cert

/-- The key-identifier consistency step, written from the spec's words
(§4.1 step 2): skipped when the child has no AuthorityKeyIdentifier or its
`key_identifier` is empty, otherwise the issuer must carry a byte-for-byte
equal SubjectKeyIdentifier. -/
def kid_check (cert_issuer cert_child : Certificate) : Bool :=
  match cert_child.akid with
  | none => true
  | some kid =>
    if kid.length = 0 then true
    else
      match cert_issuer.skid with
      | none => false
      | some sk => sk = kid

/-- Translation of `prune_duplicates` (hierarchy.cpp:75-92): the outer
iterator keeps the current head, the inner loop erases every later
certificate with the same `der_bytes`, then the outer iterator advances. -/
def prune_duplicates : List Certificate → List Certificate
  | [] => []
  | c :: rest =>
    c :: prune_duplicates (rest.filter (fun c2 => c2.der_bytes ≠ c.der_bytes))
termination_by l => l.length
decreasing_by
  simp only [List.length_cons]
  exact Nat.lt_succ_of_le (List.length_filter_le _ _)

/-- The pruning contract written from the spec's words (§4.2): walk the
input in order, keep a certificate exactly when no earlier-surviving (hence
no earlier) certificate had the same bytes. -/
def keepFirstOccurrences (seen : List (List Nat)) :
    List Certificate → List Certificate
  | [] => []
  | c :: rest =>
    if c.der_bytes ∈ seen then keepFirstOccurrences seen rest
    else c :: keepFirstOccurrences (c.der_bytes :: seen) rest

/-- The linkage state of one `Certificate_with_links` node: the `parents`
and `children` pointer sets, as duplicate-free lists of node indices. -/
structure NodeLinks where
  parents : List Nat
  children : List Nat
deriving DecidableEq, Repr

instance : Inhabited NodeLinks := ⟨⟨[], []⟩⟩

/-- The graph part of the certificate vector: entry `i` holds the links of
node `i`. -/
abbrev GState := List NodeLinks

/-- `cert->children` of node `i` (empty for an index outside the vector). -/
def childrenOf (g : GState) (i : Nat) : List Nat :=
  (g.getD i default).children

/-- `cert->parents` of node `i`. -/
def parentsOf (g : GState) (i : Nat) : List Nat :=
  (g.getD i default).parents

/-- In-place update of one node's links (`g.set` is the identity outside
the vector, matching that C++ has no such access). -/
def modifyAt (g : GState) (i : Nat) (f : NodeLinks → NodeLinks) : GState :=
  g.set i (f (g.getD i default))

/-- `std::set::insert`: no duplicate is created. -/
def setInsert (x : Nat) (l : List Nat) : List Nat :=
  if x ∈ l then l else x :: l

/-- `std::set::erase`: removes the element if present. -/
def setErase (x : Nat) (l : List Nat) : List Nat :=
  l.filter (fun y => y ≠ x)

/-- Translation of `mark_issuer` (hierarchy.cpp:94-98). -/
def mark_issuer (g : GState) (issuer issued : Nat) : GState :=
  let g1 := modifyAt g issuer (fun n => { n with children := setInsert issued n.children })
  modifyAt g1 issued (fun n => { n with parents := setInsert issuer n.parents })

/-- The paired `erase` calls of `break_loop`: drop edge `parent → child`
from both mirror sets. -/
def delEdge (g : GState) (parent child : Nat) : GState :=
  let g1 := modifyAt g parent (fun n => { n with children := setErase child n.children })
  modifyAt g1 child (fun n => { n with parents := setErase parent n.parents })

/-- The `for (it=loop.begin(); ...) if (f(*it) > f(*target)) target = it;`
scan of `break_loop`: index of the first element attaining the maximum of
`f`. -/
def argmaxIdx (f : Nat → Nat) : List Nat → Nat
  | [] => 0
  | x :: xs =>
    (xs.foldl
      (fun (b : Nat × Nat × Nat) y =>
        if f y > b.2.1 then (b.2.2, f y, b.2.2 + 1) else (b.1, b.2.1, b.2.2 + 1))
      (0, f x, 1)).1

/-- Translation of `break_loop` (hierarchy.cpp:105-166).  Branch 1 deletes
the edge from the target's predecessor in the loop and returns; branch 2
deletes the edge to the target's successor but, as in the source, does not
return, so execution always continues into branch 3, which deletes the edge
from the loop's last element to its first. -/
def break_loop (g : GState) (loop : List Nat) : GState :=
  match loop with
  | [] => g
  | a :: _ =>
    let t1 := argmaxIdx (fun x => (parentsOf g x).length) loop
    let tgt1 := loop.getD t1 0
    if (parentsOf g tgt1).length > 1 then
      let previous := if t1 = 0 then (loop.getLast?).getD 0 else loop.getD (t1 - 1) 0
      delEdge g previous tgt1
    else
      let t2 := argmaxIdx (fun x => (childrenOf g x).length) loop
      let tgt2 := loop.getD t2 0
      let g2 :=
        if (childrenOf g tgt2).length > 1 then
          let next := if t2 + 1 = loop.length then a else loop.getD (t2 + 1) 0
          delEdge g tgt2 next
        else g
      delEdge g2 ((loop.getLast?).getD 0) a

/-- The `assert(loop.size() >= 2)` of hierarchy.cpp:110: the checked entry
point returns `none` exactly when the assertion would abort. -/
def break_loop_checked (g : GState) (loop : List Nat) : Option GState :=
  if loop.length < 2 then none else some (break_loop g loop)

/-- Total number of directed edges, counted on the `children` side. -/
def edgeCount (g : GState) : Nat :=
  (g.map (fun n => n.children.length)).sum

instance : Inhabited Certificate := ⟨⟨[], 0, 0, none, none⟩⟩

mutual
/-- Translation of `find_loop` (hierarchy.cpp:180-198): push the current
node on the visited path, then scan its children.  The C++ recursion is
unbounded; `fuel` bounds the depth here, and the call sites pass enough
fuel for every well-formed graph (proved below). -/
def find_loop_fuel (g : GState) : Nat → Nat → List Nat → List Nat
  | 0, _, _ => []
  | fuel + 1, cert, visited =>
    find_children g fuel (visited ++ [cert]) (childrenOf g cert)
termination_by fuel _ _ => (fuel, 0)

/-- The `for (auto child : cert->children)` loop body of `find_loop`: on a
child already on the path, return the sub-path from its first occurrence;
otherwise recurse, stopping at the first non-empty result. -/
def find_children (g : GState) : Nat → List Nat → List Nat → List Nat
  | _, _, [] => []
  | fuel, vis, child :: rest =>
    if child ∈ vis then vis.dropWhile (fun y => y ≠ child)
    else
      let l := find_loop_fuel g fuel child vis
      if l = [] then find_children g fuel vis rest else l
termination_by fuel _ cs => (fuel, cs.length + 1)
end

/-- The `find_loop(&cert, visited_nodes)` call with an initially empty
path (hierarchy.cpp:204-205), supplied with sufficient fuel. -/
def find_loop (g : GState) (start : Nat) : List Nat :=
  find_loop_fuel g (g.length + 1) start []

/-- One `for (auto cert : certs)` iteration of `find_and_break_loops`
(hierarchy.cpp:202-208).  `for (auto cert : certs)` iterates by value, so
the DFS starts from a *copy* of the node: the copy is modelled as an extra
node appended at index `g.length`, holding the links snapshot taken when
the iteration began; it is never anyone's child, exactly like the copy's
address.  The located loop lies among the original nodes and `break_loop`
mutates those.  The C++ `while(1)` is unbounded; the fuel passed at the
call site (one more than the edge count) is proved sufficient below. -/
def process_node (snap : NodeLinks) : Nat → GState → GState
  | 0, g => g
  | fuel + 1, g =>
    let l := find_loop (g ++ [snap]) g.length
    if l = [] then g else process_node snap fuel (break_loop g l)

/-- The index recursion of `find_and_break_loops` over the vector. -/
def fabl_go : Nat → Nat → GState → GState
  | _, 0, g => g
  | i, k + 1, g => fabl_go (i + 1) k (process_node (g.getD i default) (edgeCount g + 1) g)

/-- Translation of `find_and_break_loops` (hierarchy.cpp:200-210). -/
def find_and_break_loops (g : GState) : GState :=
  fabl_go 0 g.length g

/-- Fresh links: parsing produces nodes with empty parent and child sets. -/
def emptyState (n : Nat) : GState :=
  List.replicate n default

/-- One inner-loop body of the relationship pass (hierarchy.cpp:228-238):
test `is_issuer` in both directions and record the resulting edges. -/
def build_step (verify : Certificate → Certificate → Bool)
    (cs : List Certificate) (g : GState) (i j : Nat) : GState :=
  let g1 := if is_issuer verify (cs.getD i default) (cs.getD j default) then mark_issuer g i j else g
  if is_issuer verify (cs.getD j default) (cs.getD i default) then mark_issuer g1 j i else g1

/-- The double loop of `compute_hierarchy` drawing parent-child
relationships (hierarchy.cpp:225-241): all index pairs `i < j`. -/
def build_edges (verify : Certificate → Certificate → Bool)
    (cs : List Certificate) : GState :=
  (List.range cs.length).foldl
    (fun g i =>
      (List.range' (i + 1) (cs.length - (i + 1))).foldl
        (fun g2 j => build_step verify cs g2 i j) g)
    (emptyState cs.length)

/-- Translation of `compute_hierarchy` (hierarchy.cpp:218-248): prune
duplicates, draw relationships, break loops.  Returns the surviving
certificates and their final linkage state. -/
def compute_hierarchy (verify : Certificate → Certificate → Bool)
    (certs : List Certificate) : List Certificate × GState :=
  let certs2 := prune_duplicates certs
  let g := build_edges verify certs2
  (certs2, find_and_break_loops g)

/-- A step of the children relation of `g`: the edges `find_loop` follows. -/
def gstep (g : GState) (x y : Nat) : Prop :=
  y ∈ childrenOf g x

/-- A signature verifier that accepts everything (used to instantiate
universally quantified statements at a concrete collaborator). -/
def vTrue : Certificate → Certificate → Bool := fun _ _ => true

/-- A signature verifier that rejects everything. -/
def vFalse : Certificate → Certificate → Bool := fun _ _ => false

/-- Concrete issuer certificate for instantiations. -/
def certA : Certificate := ⟨[0], 1, 2, none, some [9]⟩

/-- Concrete child certificate for instantiations: issued by subject `1`,
carrying an AuthorityKeyIdentifier equal to `certA`'s
SubjectKeyIdentifier. -/
def certB : Certificate := ⟨[1], 3, 1, some [9], none⟩

/-- A certificate byte-identical to `certA` but with different parsed
fields (a later duplicate in input order). -/
def certA2 : Certificate := ⟨[0], 7, 7, none, none⟩

/-- Edge symmetry (spec section 3): `Y` is among `X`'s children exactly when
`X` is among `Y`'s parents. -/
def symmetric_links (g : GState) : Prop :=
  ∀ i j : Nat, j ∈ childrenOf g i ↔ i ∈ parentsOf g j

/-- A concrete linkage state: edges `0 → 1`, `1 → 2`, `2 → 0` (a 3-cycle)
and the extra edge `1 → 3`. -/
def exG : GState := [⟨[2], [1]⟩, ⟨[0], [2, 3]⟩, ⟨[1], [0]⟩, ⟨[1], []⟩]

/-- Folding `build_step` over an explicit list of index pairs. -/
def apply_pairs (verify : Certificate → Certificate → Bool)
    (cs : List Certificate) (g : GState) (ps : List (Nat × Nat)) : GState :=
  ps.foldl (fun g2 p => build_step verify cs g2 p.1 p.2) g

/-- The ordered pairs `(i, j)` with `i < j < n`, enumerated as the double
loop of `compute_hierarchy` does. -/
def pairList (n : Nat) : List (Nat × Nat) :=
  ((List.range n).map
    (fun i => (List.range' (i + 1) (n - (i + 1))).map (fun j => (i, j)))).flatten

/-- Reachability along children edges. -/
def Reach (g : GState) (a b : Nat) : Prop :=
  Relation.ReflTransGen (gstep g) a b

/-- `l` is a directed cycle of `g` exactly as the spec describes the Cycle
Detector's output: each node's successor in the list is one of its
children, and the first node is a child of the last. -/
def cycleList (g : GState) (l : List Nat) : Prop :=
  match l with
  | [] => False
  | a :: t =>
    List.Chain (gstep g) a t ∧ ∀ b ∈ (a :: t).getLast?, gstep g b a

/-- All child links point inside the vector. -/
def wf_children (g : GState) : Prop :=
  ∀ i < g.length, ∀ j ∈ childrenOf g i, j < g.length

/-- No node lists itself as its own child. -/
def no_self_child (g : GState) : Prop :=
  ∀ i < g.length, i ∉ childrenOf g i

/-- A two-node graph with mutual edges `0 ↔ 1`. -/
def exH : GState := [⟨[1], [1]⟩, ⟨[0], [0]⟩]

/-! ## Theorems -/

/-- **C3.** `is_issuer A B` is false whenever `A`'s subject differs from
`B`'s issuer, whatever the verifier does; and it is true exactly when the
names match, the key-identifier consistency check (`kid_check`, skipped
when the child has no AuthorityKeyIdentifier or an empty key identifier,
otherwise demanding a byte-for-byte equal SubjectKeyIdentifier on the
issuer) passes, and signature verification succeeds. -/
theorem is_issuer_characterisation (verify : Certificate → Certificate → Bool)
    (A B : Certificate) :
    (A.subject ≠ B.issuer → is_issuer verify A B = false) ∧
    (is_issuer verify A B = true ↔
      A.subject = B.issuer ∧ kid_check A B = true ∧ verify A B = true) := by
  constructor
  · intro h
    unfold is_issuer
    simp [h]
  · unfold is_issuer kid_check
    rcases hA : B.akid with _ | kid
    · by_cases hs : A.subject = B.issuer <;> simp [hs]
    · by_cases hs : A.subject = B.issuer
      · by_cases hk : kid.length = 0
        · simp [hs, hk]
        · rcases hB : A.skid with _ | sk
          · simp [hs, hk, hB]
          · by_cases he : sk = kid <;> simp [hs, hk, hB, he]
      · simp [hs]

/-- Closed instance of `is_issuer_characterisation`: on `certA`, `certB`
and the all-accepting verifier the names match and the key identifiers
agree, so the predicate holds. -/
theorem is_issuer_characterisation_witness :
    is_issuer vTrue certA certB = true :=
  (is_issuer_characterisation vTrue certA certB).2.mpr
    ⟨by decide, by decide, by decide⟩

theorem mem_of_mem_prune_duplicates :
    ∀ (l : List Certificate), ∀ c ∈ prune_duplicates l, c ∈ l := by
  intro l
  induction l using prune_duplicates.induct with
  | case1 => simp [prune_duplicates]
  | case2 c rest ih =>
    intro x hx
    rw [prune_duplicates, List.mem_cons] at hx
    rcases hx with hx | hx
    · exact hx ▸ List.mem_cons_self _ _
    · exact List.mem_cons_of_mem _ (List.mem_of_mem_filter (ih x hx))

theorem find?_filter_of_imp (p q : Certificate → Bool)
    (h : ∀ x, p x = true → q x = true) :
    ∀ l : List Certificate, (l.filter q).find? p = l.find? p := by
  intro l
  induction l with
  | nil => simp
  | cons x xs ih =>
    by_cases hp : p x = true
    · have hq := h x hp
      simp [List.filter_cons, hq, List.find?_cons_of_pos, hp]
    · by_cases hq : q x = true
      · simp [List.filter_cons, hq, List.find?_cons_of_neg, hp, ih]
      · simp only [List.filter_cons, hq, if_neg, Bool.false_eq_true, not_false_eq_true, ih]
        rw [List.find?_cons_of_neg _ (by simp [hp])]

/-- **C5.** After pruning no two survivors have equal `der_bytes`, every
survivor is the first certificate of the input carrying its bytes, and
every input certificate still has a representative with its bytes. -/
theorem prune_duplicates_spec (l : List Certificate) :
    ((prune_duplicates l).map (fun c => c.der_bytes)).Nodup ∧
    (∀ c ∈ prune_duplicates l,
      l.find? (fun x => decide (x.der_bytes = c.der_bytes)) = some c) ∧
    (∀ c ∈ l, ∃ c2 ∈ prune_duplicates l, c2.der_bytes = c.der_bytes) := by
  induction l using prune_duplicates.induct with
  | case1 => simp [prune_duplicates]
  | case2 c rest ih =>
    obtain ⟨ih1, ih2, ih3⟩ := ih
    refine ⟨?_, ?_, ?_⟩
    · rw [prune_duplicates]
      simp only [List.map_cons, List.nodup_cons]
      refine ⟨?_, ih1⟩
      intro hmem
      rw [List.mem_map] at hmem
      obtain ⟨c2, hc2, hb⟩ := hmem
      have hmemf := mem_of_mem_prune_duplicates _ c2 hc2
      rw [List.mem_filter] at hmemf
      have hne : c2.der_bytes ≠ c.der_bytes := by simpa using hmemf.2
      exact hne hb
    · intro x hx
      rw [prune_duplicates, List.mem_cons] at hx
      rcases hx with rfl | hx
      · rw [List.find?_cons_of_pos _ (by simp)]
      · have hne : x.der_bytes ≠ c.der_bytes := by
          have hmemf := mem_of_mem_prune_duplicates _ x hx
          rw [List.mem_filter] at hmemf
          simpa using hmemf.2
        have h1 : (c :: rest).find? (fun y => decide (y.der_bytes = x.der_bytes))
            = rest.find? (fun y => decide (y.der_bytes = x.der_bytes)) := by
          apply List.find?_cons_of_neg
          simp only [decide_eq_true_eq]
          exact fun h => hne h.symm
        have h2 := find?_filter_of_imp (fun y => decide (y.der_bytes = x.der_bytes))
            (fun c2 => decide (c2.der_bytes ≠ c.der_bytes))
            (fun y hy => by
              simp only [decide_eq_true_eq] at hy ⊢
              rw [hy]; exact hne) rest
        rw [h1, ← h2]
        exact ih2 x hx
    · intro x hx
      rw [List.mem_cons] at hx
      rcases hx with rfl | hx
      · exact ⟨x, by rw [prune_duplicates]; exact List.mem_cons_self _ _, rfl⟩
      · by_cases hb : x.der_bytes = c.der_bytes
        · exact ⟨c, by rw [prune_duplicates]; exact List.mem_cons_self _ _, hb.symm⟩
        · obtain ⟨c2, hc2, hb2⟩ :=
            ih3 x (by rw [List.mem_filter]; exact ⟨hx, by simp [hb]⟩)
          exact ⟨c2, by rw [prune_duplicates]; exact List.mem_cons_of_mem _ hc2, hb2⟩

theorem keepFirstOccurrences_eq_prune :
    ∀ (l : List Certificate) (seen : List (List Nat)),
      keepFirstOccurrences seen l
        = prune_duplicates (l.filter (fun c => decide (c.der_bytes ∉ seen))) := by
  intro l
  induction l with
  | nil => intro seen; simp [keepFirstOccurrences, prune_duplicates]
  | cons c rest ih =>
    intro seen
    by_cases hc : c.der_bytes ∈ seen
    · rw [keepFirstOccurrences, if_pos hc, List.filter_cons, if_neg (by simp [hc])]
      exact ih seen
    · rw [keepFirstOccurrences, if_neg hc, List.filter_cons, if_pos (by simp [hc]),
        prune_duplicates, List.filter_filter]
      have hpt : ∀ a ∈ rest,
          (decide (a.der_bytes ≠ c.der_bytes) && decide (a.der_bytes ∉ seen))
            = decide (a.der_bytes ∉ c.der_bytes :: seen) := by
        intro a _
        by_cases h1 : a.der_bytes ∈ seen <;> by_cases h2 : a.der_bytes = c.der_bytes <;>
          simp [h1, h2]
      rw [List.filter_congr hpt, ih (c.der_bytes :: seen)]

theorem prune_duplicates_sublist :
    ∀ l : List Certificate, (prune_duplicates l).Sublist l := by
  intro l
  induction l using prune_duplicates.induct with
  | case1 => simp [prune_duplicates]
  | case2 c rest ih =>
    rw [prune_duplicates]
    exact List.Sublist.cons₂ _ (ih.trans (List.filter_sublist _))

/-- **C10.** Pruning returns exactly the input subsequence keeping the
first occurrence of each byte string: it equals the spec-side
`keepFirstOccurrences` walk and is a sublist of the input, so survivors
stay in their original relative positions. -/
theorem prune_duplicates_is_first_occurrence_subsequence (l : List Certificate) :
    prune_duplicates l = keepFirstOccurrences [] l ∧
    (prune_duplicates l).Sublist l := by
  constructor
  · rw [keepFirstOccurrences_eq_prune l []]
    simp
  · exact prune_duplicates_sublist l

theorem prune_duplicates_spec_witness :
    ∃ c2 ∈ prune_duplicates [certA, certB, certA2],
      c2.der_bytes = certA2.der_bytes :=
  (prune_duplicates_spec [certA, certB, certA2]).2.2 certA2 (by decide)

theorem modifyAt_length (g : GState) (i : Nat) (f : NodeLinks → NodeLinks) :
    (modifyAt g i f).length = g.length :=
  List.length_set g i _

theorem modifyAt_getD (g : GState) (i : Nat) (f : NodeLinks → NodeLinks) (j : Nat) :
    (modifyAt g i f).getD j default
      = if i = j ∧ i < g.length then f (g.getD i default) else g.getD j default := by
  unfold modifyAt
  rw [List.getD_eq_getElem?_getD, List.getElem?_set, List.getD_eq_getElem?_getD g j]
  by_cases hij : i = j
  · subst hij
    by_cases hi : i < g.length
    · simp [hi]
    · rw [List.getElem?_eq_none (Nat.le_of_not_lt hi)]
      simp [hi]
  · simp [hij]

theorem getD_eq_default_of_le (g : GState) (i : Nat) (h : g.length ≤ i) :
    g.getD i default = default := by
  rw [List.getD_eq_getElem?_getD, List.getElem?_eq_none h]
  rfl

theorem childrenOf_oob (g : GState) (i : Nat) (h : g.length ≤ i) :
    childrenOf g i = [] := by
  unfold childrenOf
  rw [getD_eq_default_of_le g i h]
  rfl

theorem parentsOf_oob (g : GState) (i : Nat) (h : g.length ≤ i) :
    parentsOf g i = [] := by
  unfold parentsOf
  rw [getD_eq_default_of_le g i h]
  rfl

theorem mem_setInsert (y x : Nat) (l : List Nat) :
    y ∈ setInsert x l ↔ y = x ∨ y ∈ l := by
  unfold setInsert
  by_cases h : x ∈ l
  · simp only [if_pos h]
    constructor
    · exact Or.inr
    · rintro (rfl | hy)
      · exact h
      · exact hy
  · simp [if_neg h]

theorem mem_setErase (y x : Nat) (l : List Nat) :
    y ∈ setErase x l ↔ y ∈ l ∧ y ≠ x := by
  unfold setErase
  simp [List.mem_filter]

theorem setInsert_nodup (x : Nat) (l : List Nat) (h : l.Nodup) :
    (setInsert x l).Nodup := by
  unfold setInsert
  by_cases hx : x ∈ l
  · simpa [hx]
  · simp [hx, h]

theorem setErase_nodup (x : Nat) (l : List Nat) (h : l.Nodup) :
    (setErase x l).Nodup :=
  h.filter _

theorem childrenOf_modifyAt_parents (G : GState) (i : Nat)
    (h : NodeLinks → List Nat) (x : Nat) :
    childrenOf (modifyAt G i (fun n => { n with parents := h n })) x
      = childrenOf G x := by
  unfold childrenOf
  rw [modifyAt_getD]
  by_cases hc : i = x ∧ i < G.length
  · rw [if_pos hc]
    obtain ⟨rfl, _⟩ := hc
    rfl
  · rw [if_neg hc]

theorem parentsOf_modifyAt_children (G : GState) (i : Nat)
    (h : NodeLinks → List Nat) (x : Nat) :
    parentsOf (modifyAt G i (fun n => { n with children := h n })) x
      = parentsOf G x := by
  unfold parentsOf
  rw [modifyAt_getD]
  by_cases hc : i = x ∧ i < G.length
  · rw [if_pos hc]
    obtain ⟨rfl, _⟩ := hc
    rfl
  · rw [if_neg hc]

theorem childrenOf_modifyAt_children (G : GState) (i : Nat)
    (h : NodeLinks → List Nat) (x : Nat) :
    childrenOf (modifyAt G i (fun n => { n with children := h n })) x
      = if i = x ∧ i < G.length then h (G.getD i default) else childrenOf G x := by
  unfold childrenOf
  rw [modifyAt_getD]
  by_cases hc : i = x ∧ i < G.length
  · rw [if_pos hc, if_pos hc]
  · rw [if_neg hc, if_neg hc]

theorem parentsOf_modifyAt_parents (G : GState) (i : Nat)
    (h : NodeLinks → List Nat) (x : Nat) :
    parentsOf (modifyAt G i (fun n => { n with parents := h n })) x
      = if i = x ∧ i < G.length then h (G.getD i default) else parentsOf G x := by
  unfold parentsOf
  rw [modifyAt_getD]
  by_cases hc : i = x ∧ i < G.length
  · rw [if_pos hc, if_pos hc]
  · rw [if_neg hc, if_neg hc]

theorem childrenOf_mark_issuer (g : GState) (a b x : Nat) :
    childrenOf (mark_issuer g a b) x
      = if a = x ∧ a < g.length then setInsert b (childrenOf g a)
        else childrenOf g x := by
  unfold mark_issuer
  rw [childrenOf_modifyAt_parents, childrenOf_modifyAt_children]
  rfl

theorem parentsOf_mark_issuer (g : GState) (a b x : Nat) :
    parentsOf (mark_issuer g a b) x
      = if b = x ∧ b < g.length then setInsert a (parentsOf g b)
        else parentsOf g x := by
  unfold mark_issuer
  rw [parentsOf_modifyAt_parents, modifyAt_length]
  by_cases hb : b = x ∧ b < g.length
  · rw [if_pos hb, if_pos hb]
    have hp : ((modifyAt g a fun n => { n with children := setInsert b n.children }).getD
        b default).parents = parentsOf g b :=
      parentsOf_modifyAt_children g a _ b
    rw [hp]
  · rw [if_neg hb, if_neg hb]
    exact parentsOf_modifyAt_children g a _ x

theorem childrenOf_delEdge (g : GState) (p c x : Nat) :
    childrenOf (delEdge g p c) x
      = if p = x ∧ p < g.length then setErase c (childrenOf g p)
        else childrenOf g x := by
  unfold delEdge
  rw [childrenOf_modifyAt_parents, childrenOf_modifyAt_children]
  rfl

theorem parentsOf_delEdge (g : GState) (p c x : Nat) :
    parentsOf (delEdge g p c) x
      = if c = x ∧ c < g.length then setErase p (parentsOf g c)
        else parentsOf g x := by
  unfold delEdge
  rw [parentsOf_modifyAt_parents, modifyAt_length]
  by_cases hc : c = x ∧ c < g.length
  · rw [if_pos hc, if_pos hc]
    have hp : ((modifyAt g p fun n => { n with children := setErase c n.children }).getD
        c default).parents = parentsOf g c :=
      parentsOf_modifyAt_children g p _ c
    rw [hp]
  · rw [if_neg hc, if_neg hc]
    exact parentsOf_modifyAt_children g p _ x

theorem mem_childrenOf_delEdge (g : GState) (p c x y : Nat) :
    y ∈ childrenOf (delEdge g p c) x ↔
      y ∈ childrenOf g x ∧ ¬(x = p ∧ y = c) := by
  rw [childrenOf_delEdge]
  by_cases h : p = x ∧ p < g.length
  · obtain ⟨rfl, hlt⟩ := h
    rw [if_pos ⟨rfl, hlt⟩, mem_setErase]
    constructor
    · rintro ⟨h1, h2⟩
      exact ⟨h1, fun hh => h2 hh.2⟩
    · rintro ⟨h1, h2⟩
      exact ⟨h1, fun hh => h2 ⟨rfl, hh⟩⟩
  · rw [if_neg h]
    by_cases hx : x = p
    · subst hx
      have hlen : ¬ x < g.length := fun hl => h ⟨rfl, hl⟩
      rw [childrenOf_oob g x (Nat.le_of_not_lt hlen)]
      simp
    · simp [hx]

theorem mem_parentsOf_delEdge (g : GState) (p c x y : Nat) :
    y ∈ parentsOf (delEdge g p c) x ↔
      y ∈ parentsOf g x ∧ ¬(x = c ∧ y = p) := by
  rw [parentsOf_delEdge]
  by_cases h : c = x ∧ c < g.length
  · obtain ⟨rfl, hlt⟩ := h
    rw [if_pos ⟨rfl, hlt⟩, mem_setErase]
    constructor
    · rintro ⟨h1, h2⟩
      exact ⟨h1, fun hh => h2 hh.2⟩
    · rintro ⟨h1, h2⟩
      exact ⟨h1, fun hh => h2 ⟨rfl, hh⟩⟩
  · rw [if_neg h]
    by_cases hx : x = c
    · subst hx
      have hlen : ¬ x < g.length := fun hl => h ⟨rfl, hl⟩
      rw [parentsOf_oob g x (Nat.le_of_not_lt hlen)]
      simp
    · simp [hx]

theorem mem_childrenOf_mark_issuer (g : GState) (a b x y : Nat) :
    y ∈ childrenOf (mark_issuer g a b) x ↔
      y ∈ childrenOf g x ∨ (x = a ∧ y = b ∧ a < g.length) := by
  rw [childrenOf_mark_issuer]
  by_cases h : a = x ∧ a < g.length
  · obtain ⟨rfl, hlt⟩ := h
    rw [if_pos ⟨rfl, hlt⟩, mem_setInsert]
    constructor
    · rintro (rfl | hy)
      · exact Or.inr ⟨rfl, rfl, hlt⟩
      · exact Or.inl hy
    · rintro (hy | ⟨-, rfl, -⟩)
      · exact Or.inr hy
      · exact Or.inl rfl
  · rw [if_neg h]
    constructor
    · exact Or.inl
    · rintro (hy | ⟨rfl, rfl, hlt⟩)
      · exact hy
      · exact absurd ⟨rfl, hlt⟩ h

theorem mem_parentsOf_mark_issuer (g : GState) (a b x y : Nat) :
    y ∈ parentsOf (mark_issuer g a b) x ↔
      y ∈ parentsOf g x ∨ (x = b ∧ y = a ∧ b < g.length) := by
  rw [parentsOf_mark_issuer]
  by_cases h : b = x ∧ b < g.length
  · obtain ⟨rfl, hlt⟩ := h
    rw [if_pos ⟨rfl, hlt⟩, mem_setInsert]
    constructor
    · rintro (rfl | hy)
      · exact Or.inr ⟨rfl, rfl, hlt⟩
      · exact Or.inl hy
    · rintro (hy | ⟨-, rfl, -⟩)
      · exact Or.inr hy
      · exact Or.inl rfl
  · rw [if_neg h]
    constructor
    · exact Or.inl
    · rintro (hy | ⟨rfl, rfl, hlt⟩)
      · exact hy
      · exact absurd ⟨rfl, hlt⟩ h

theorem emptyState_length (n : Nat) : (emptyState n).length = n :=
  List.length_replicate n default

theorem childrenOf_emptyState (n i : Nat) : childrenOf (emptyState n) i = [] := by
  unfold childrenOf emptyState
  rw [List.getD_eq_getElem?_getD, List.getElem?_replicate]
  split <;> rfl

theorem parentsOf_emptyState (n i : Nat) : parentsOf (emptyState n) i = [] := by
  unfold parentsOf emptyState
  rw [List.getD_eq_getElem?_getD, List.getElem?_replicate]
  split <;> rfl

theorem symmetric_links_emptyState (n : Nat) : symmetric_links (emptyState n) := by
  intro i j
  rw [childrenOf_emptyState, parentsOf_emptyState]
  simp

theorem symmetric_links_delEdge (g : GState) (p c : Nat)
    (h : symmetric_links g) : symmetric_links (delEdge g p c) := by
  intro i j
  rw [mem_childrenOf_delEdge, mem_parentsOf_delEdge, h i j]
  tauto

theorem symmetric_links_mark_issuer (g : GState) (a b : Nat)
    (ha : a < g.length) (hb : b < g.length)
    (h : symmetric_links g) : symmetric_links (mark_issuer g a b) := by
  intro i j
  rw [mem_childrenOf_mark_issuer, mem_parentsOf_mark_issuer, h i j]
  constructor
  · rintro (hm | ⟨rfl, rfl, -⟩)
    · exact Or.inl hm
    · exact Or.inr ⟨rfl, rfl, hb⟩
  · rintro (hm | ⟨rfl, rfl, -⟩)
    · exact Or.inl hm
    · exact Or.inr ⟨rfl, rfl, ha⟩

theorem symmetric_links_break_loop (g : GState) (l : List Nat)
    (h : symmetric_links g) : symmetric_links (break_loop g l) := by
  cases l with
  | nil => simpa [break_loop]
  | cons a t =>
    rw [break_loop]
    dsimp only
    split_ifs
    all_goals
      first
        | exact symmetric_links_delEdge _ _ _ h
        | exact symmetric_links_delEdge _ _ _ (symmetric_links_delEdge _ _ _ h)

theorem foldl_preserve {α : Type} (P : GState → Prop) (f : GState → α → GState) :
    ∀ (l : List α) (g : GState), (∀ g2 a, a ∈ l → P g2 → P (f g2 a)) → P g →
      P (l.foldl f g) := by
  intro l
  induction l with
  | nil => intro g _ hg; exact hg
  | cons x xs ih =>
    intro g hf hg
    exact ih _ (fun g2 a ha => hf g2 a (List.mem_cons_of_mem _ ha))
      (hf g x (List.mem_cons_self _ _) hg)

theorem mark_issuer_length (g : GState) (a b : Nat) :
    (mark_issuer g a b).length = g.length := by
  unfold mark_issuer
  rw [modifyAt_length, modifyAt_length]

theorem delEdge_length (g : GState) (p c : Nat) :
    (delEdge g p c).length = g.length := by
  unfold delEdge
  rw [modifyAt_length, modifyAt_length]

theorem break_loop_length (g : GState) (l : List Nat) :
    (break_loop g l).length = g.length := by
  cases l with
  | nil => rw [break_loop]
  | cons a t =>
    rw [break_loop]
    dsimp only
    split_ifs <;> simp [delEdge_length]

theorem mark_issuer_preserves_symlen (g : GState) (a b n : Nat)
    (ha : a < n) (hb : b < n)
    (h : symmetric_links g ∧ g.length = n) :
    symmetric_links (mark_issuer g a b) ∧ (mark_issuer g a b).length = n :=
  ⟨symmetric_links_mark_issuer _ _ _ (h.2 ▸ ha) (h.2 ▸ hb) h.1,
    by rw [mark_issuer_length, h.2]⟩

theorem build_step_preserves_symlen (verify : Certificate → Certificate → Bool)
    (cs : List Certificate) (g : GState) (i j : Nat)
    (hi : i < cs.length) (hj : j < cs.length)
    (h : symmetric_links g ∧ g.length = cs.length) :
    symmetric_links (build_step verify cs g i j) ∧
      (build_step verify cs g i j).length = cs.length := by
  unfold build_step
  split_ifs
  all_goals
    first
      | exact h
      | exact mark_issuer_preserves_symlen _ _ _ _ hj hi
          (mark_issuer_preserves_symlen _ _ _ _ hi hj h)
      | exact mark_issuer_preserves_symlen _ _ _ _ hi hj h
      | exact mark_issuer_preserves_symlen _ _ _ _ hj hi h

theorem build_edges_symlen (verify : Certificate → Certificate → Bool)
    (cs : List Certificate) :
    symmetric_links (build_edges verify cs) ∧
      (build_edges verify cs).length = cs.length := by
  unfold build_edges
  apply foldl_preserve (fun g => symmetric_links g ∧ g.length = cs.length)
  · intro g i hi hp
    apply foldl_preserve (fun g => symmetric_links g ∧ g.length = cs.length)
    · intro g2 j hj hp2
      have hi2 : i < cs.length := List.mem_range.mp hi
      have hj2 : j < cs.length := by
        have := List.mem_range'_1.mp hj
        omega
      exact build_step_preserves_symlen verify cs g2 i j hi2 hj2 hp2
    · exact hp
  · exact ⟨symmetric_links_emptyState _, emptyState_length _⟩

theorem process_node_preserve (P : GState → Prop)
    (hP : ∀ g l, P g → P (break_loop g l)) :
    ∀ (fuel : Nat) (snap : NodeLinks) (g : GState), P g →
      P (process_node snap fuel g) := by
  intro fuel
  induction fuel with
  | zero => intro snap g hg; exact hg
  | succ f ih =>
    intro snap g hg
    rw [process_node]
    split_ifs
    · exact hg
    · exact ih snap _ (hP g _ hg)

theorem fabl_go_preserve (P : GState → Prop)
    (hP : ∀ g l, P g → P (break_loop g l)) :
    ∀ (k i : Nat) (g : GState), P g → P (fabl_go i k g) := by
  intro k
  induction k with
  | zero => intro i g hg; exact hg
  | succ k ih =>
    intro i g hg
    rw [fabl_go]
    exact ih (i + 1) _ (process_node_preserve P hP _ _ _ hg)

theorem find_and_break_loops_preserve (P : GState → Prop)
    (hP : ∀ g l, P g → P (break_loop g l)) (g : GState) (hg : P g) :
    P (find_and_break_loops g) :=
  fabl_go_preserve P hP _ _ _ hg

/-- **C4.** Edge symmetry: the two link sets mirror one directed edge at
every stage — the freshly built state is symmetric, `mark_issuer` and the
`break_loop` deletions preserve symmetry, and so the relationship pass and
the whole pipeline leave a symmetric graph. -/
theorem edge_symmetry_invariant :
    (∀ n, symmetric_links (emptyState n)) ∧
    (∀ g a b, a < g.length → b < g.length → symmetric_links g →
      symmetric_links (mark_issuer g a b)) ∧
    (∀ g p c, symmetric_links g → symmetric_links (delEdge g p c)) ∧
    (∀ g l, symmetric_links g → symmetric_links (break_loop g l)) ∧
    (∀ verify cs, symmetric_links (build_edges verify cs)) ∧
    (∀ verify certs, symmetric_links (compute_hierarchy verify certs).2) := by
  refine ⟨symmetric_links_emptyState,
    fun g a b ha hb h => symmetric_links_mark_issuer g a b ha hb h,
    fun g p c h => symmetric_links_delEdge g p c h,
    fun g l h => symmetric_links_break_loop g l h, ?_, ?_⟩
  · exact fun verify cs => (build_edges_symlen verify cs).1
  · intro verify certs
    unfold compute_hierarchy
    dsimp only
    exact find_and_break_loops_preserve symmetric_links
      (fun g l h => symmetric_links_break_loop g l h) _
      (build_edges_symlen verify _).1

/-- Closed instance of `edge_symmetry_invariant`: inserting the edge `0 → 1`
into a fresh two-node graph keeps the links symmetric. -/
theorem edge_symmetry_invariant_witness :
    symmetric_links (mark_issuer (emptyState 2) 0 1) :=
  edge_symmetry_invariant.2.1 (emptyState 2) 0 1 (by decide) (by decide)
    (edge_symmetry_invariant.1 2)

/-- **C2 (refuting evaluation).** `[0, 1, 2]` is a valid cycle list for
`exG` (each successor is a child, the head is a child of the last), yet
`break_loop` removes two edges, not exactly one: node 1 has two children,
so branch 2 deletes `1 → 2`, and the missing `return` lets branch 3 also
delete `2 → 0`. -/
theorem break_loop_deletes_two_edges_on_exG :
    (1 ∈ childrenOf exG 0 ∧ 2 ∈ childrenOf exG 1 ∧ 0 ∈ childrenOf exG 2 ∧
      (2 ≤ ([0, 1, 2] : List Nat).length)) ∧
    edgeCount exG = 4 ∧ edgeCount (break_loop exG [0, 1, 2]) = 2 := by
  decide

theorem build_step_length (verify : Certificate → Certificate → Bool)
    (cs : List Certificate) (g : GState) (i j : Nat) :
    (build_step verify cs g i j).length = g.length := by
  unfold build_step
  split_ifs <;> simp [mark_issuer_length]

theorem build_step_children (verify : Certificate → Certificate → Bool)
    (cs : List Certificate) (g : GState) (i j x y : Nat)
    (hi : i < g.length) (hj : j < g.length) :
    y ∈ childrenOf (build_step verify cs g i j) x ↔
      y ∈ childrenOf g x ∨
        (x = i ∧ y = j ∧
          is_issuer verify (cs.getD i default) (cs.getD j default) = true) ∨
        (x = j ∧ y = i ∧
          is_issuer verify (cs.getD j default) (cs.getD i default) = true) := by
  unfold build_step
  split_ifs with e1 e2 e2
  · rw [mem_childrenOf_mark_issuer, mem_childrenOf_mark_issuer]
    rw [mark_issuer_length]
    constructor
    · rintro ((hm | ⟨rfl, rfl, -⟩) | ⟨rfl, rfl, -⟩)
      · exact Or.inl hm
      · exact Or.inr (Or.inl ⟨rfl, rfl, e1⟩)
      · exact Or.inr (Or.inr ⟨rfl, rfl, e2⟩)
    · rintro (hm | ⟨rfl, rfl, -⟩ | ⟨rfl, rfl, -⟩)
      · exact Or.inl (Or.inl hm)
      · exact Or.inl (Or.inr ⟨rfl, rfl, hi⟩)
      · exact Or.inr ⟨rfl, rfl, hj⟩
  · rw [mem_childrenOf_mark_issuer]
    constructor
    · rintro (hm | ⟨rfl, rfl, -⟩)
      · exact Or.inl hm
      · exact Or.inr (Or.inl ⟨rfl, rfl, e1⟩)
    · rintro (hm | ⟨rfl, rfl, -⟩ | ⟨rfl, rfl, he⟩)
      · exact Or.inl hm
      · exact Or.inr ⟨rfl, rfl, hi⟩
      · exact absurd he e2
  · rw [mem_childrenOf_mark_issuer]
    constructor
    · rintro (hm | ⟨rfl, rfl, -⟩)
      · exact Or.inl hm
      · exact Or.inr (Or.inr ⟨rfl, rfl, e2⟩)
    · rintro (hm | ⟨rfl, rfl, he⟩ | ⟨rfl, rfl, -⟩)
      · exact Or.inl hm
      · exact absurd he e1
      · exact Or.inr ⟨rfl, rfl, hj⟩
  · constructor
    · exact Or.inl
    · rintro (hm | ⟨rfl, rfl, he⟩ | ⟨rfl, rfl, he⟩)
      · exact hm
      · exact absurd he e1
      · exact absurd he e2

theorem apply_pairs_children (verify : Certificate → Certificate → Bool)
    (cs : List Certificate) :
    ∀ (ps : List (Nat × Nat)) (g : GState) (x y : Nat),
      (∀ p ∈ ps, p.1 < g.length ∧ p.2 < g.length) →
      (y ∈ childrenOf (apply_pairs verify cs g ps) x ↔
        y ∈ childrenOf g x ∨
          (((x, y) ∈ ps ∨ (y, x) ∈ ps) ∧
            is_issuer verify (cs.getD x default) (cs.getD y default) = true)) := by
  intro ps
  induction ps with
  | nil =>
    intro g x y _
    simp [apply_pairs]
  | cons p ps ih =>
    obtain ⟨pi, pj⟩ := p
    intro g x y hb
    have hp := hb (pi, pj) (List.mem_cons_self _ _)
    have hstep : apply_pairs verify cs g ((pi, pj) :: ps)
        = apply_pairs verify cs (build_step verify cs g pi pj) ps := rfl
    rw [hstep, ih (build_step verify cs g pi pj) x y
      (fun q hq => by
        rw [build_step_length]
        exact hb q (List.mem_cons_of_mem _ hq)),
      build_step_children verify cs g pi pj x y hp.1 hp.2]
    constructor
    · rintro ((hm | ⟨rfl, rfl, hiss⟩ | ⟨rfl, rfl, hiss⟩) | ⟨hmem, hiss⟩)
      · exact Or.inl hm
      · exact Or.inr ⟨Or.inl (List.mem_cons_self _ _), hiss⟩
      · exact Or.inr ⟨Or.inr (List.mem_cons_self _ _), hiss⟩
      · rcases hmem with hmem | hmem
        · exact Or.inr ⟨Or.inl (List.mem_cons_of_mem _ hmem), hiss⟩
        · exact Or.inr ⟨Or.inr (List.mem_cons_of_mem _ hmem), hiss⟩
    · rintro (hm | ⟨hmem | hmem, hiss⟩)
      · exact Or.inl (Or.inl hm)
      · rcases List.mem_cons.mp hmem with heq | hmem2
        · injection heq with h1 h2
          subst h1; subst h2
          exact Or.inl (Or.inr (Or.inl ⟨rfl, rfl, hiss⟩))
        · exact Or.inr ⟨Or.inl hmem2, hiss⟩
      · rcases List.mem_cons.mp hmem with heq | hmem2
        · injection heq with h1 h2
          subst h1; subst h2
          exact Or.inl (Or.inr (Or.inr ⟨rfl, rfl, hiss⟩))
        · exact Or.inr ⟨Or.inr hmem2, hiss⟩

theorem mem_pairList (n x y : Nat) : (x, y) ∈ pairList n ↔ x < y ∧ y < n := by
  unfold pairList
  simp only [List.mem_flatten, List.mem_map, List.mem_range]
  constructor
  · rintro ⟨l, ⟨i, hi, rfl⟩, hmem⟩
    rw [List.mem_map] at hmem
    obtain ⟨j, hj, heq⟩ := hmem
    injection heq with h1 h2
    subst h1; subst h2
    rw [List.mem_range'_1] at hj
    omega
  · rintro ⟨hxy, hyn⟩
    refine ⟨(List.range' (x + 1) (n - (x + 1))).map (fun j => (x, j)),
      ⟨x, by omega, rfl⟩, ?_⟩
    rw [List.mem_map]
    refine ⟨y, ?_, rfl⟩
    rw [List.mem_range'_1]
    omega

theorem build_edges_eq_apply_pairs (verify : Certificate → Certificate → Bool)
    (cs : List Certificate) :
    build_edges verify cs
      = apply_pairs verify cs (emptyState cs.length) (pairList cs.length) := by
  unfold build_edges apply_pairs pairList
  rw [List.foldl_flatten, List.foldl_map]
  congr 1
  funext g i
  rw [List.foldl_map]

/-- **C6.** After the relationship pass, for distinct in-range indices the
edge `i → j` (recorded on both mirror sides) exists exactly when
`is_issuer` accepts the ordered pair; no node is ever its own parent or
child because self-pairs are never enumerated. -/
theorem build_edges_characterisation (verify : Certificate → Certificate → Bool)
    (cs : List Certificate) :
    (∀ i j, i < cs.length → j < cs.length → i ≠ j →
      ((j ∈ childrenOf (build_edges verify cs) i ∧
        i ∈ parentsOf (build_edges verify cs) j) ↔
        is_issuer verify (cs.getD i default) (cs.getD j default) = true)) ∧
    (∀ i, i ∉ childrenOf (build_edges verify cs) i ∧
      i ∉ parentsOf (build_edges verify cs) i) := by
  have hsym := (build_edges_symlen verify cs).1
  have hchar : ∀ x y, y ∈ childrenOf (build_edges verify cs) x ↔
      (((x, y) ∈ pairList cs.length ∨ (y, x) ∈ pairList cs.length) ∧
        is_issuer verify (cs.getD x default) (cs.getD y default) = true) := by
    intro x y
    rw [build_edges_eq_apply_pairs, apply_pairs_children verify cs _ _ x y
      (fun q hq => by
        obtain ⟨q1, q2⟩ := q
        rw [emptyState_length]
        rw [mem_pairList] at hq
        omega),
      childrenOf_emptyState]
    simp only [List.not_mem_nil, false_or]
  constructor
  · intro i j hi hj hne
    constructor
    · rintro ⟨hc, -⟩
      exact ((hchar i j).mp hc).2
    · intro hiss
      have hmem : (i, j) ∈ pairList cs.length ∨ (j, i) ∈ pairList cs.length := by
        rcases Nat.lt_or_ge i j with hij | hij
        · exact Or.inl ((mem_pairList _ _ _).mpr ⟨hij, hj⟩)
        · exact Or.inr ((mem_pairList _ _ _).mpr ⟨by omega, hi⟩)
      have hc : j ∈ childrenOf (build_edges verify cs) i :=
        (hchar i j).mpr ⟨hmem, hiss⟩
      exact ⟨hc, (hsym i j).mp hc⟩
  · intro i
    have h1 : i ∉ childrenOf (build_edges verify cs) i := by
      rw [hchar i i]
      rintro ⟨hmem | hmem, -⟩ <;>
        (rw [mem_pairList] at hmem; omega)
    exact ⟨h1, fun hp => h1 ((hsym i i).mpr hp)⟩

/-- Closed instance of `build_edges_characterisation`: in the two-node
collection `[certA, certB]` under the all-accepting verifier, the edge
`0 → 1` exists exactly because `is_issuer certA certB` holds. -/
theorem build_edges_characterisation_witness :
    (1 ∈ childrenOf (build_edges vTrue [certA, certB]) 0 ∧
      0 ∈ parentsOf (build_edges vTrue [certA, certB]) 1) ↔
      is_issuer vTrue (List.getD [certA, certB] 0 default)
        (List.getD [certA, certB] 1 default) = true :=
  (build_edges_characterisation vTrue [certA, certB]).1 0 1
    (by decide) (by decide) (by decide)

theorem head?_dropWhile_ne (c : Nat) :
    ∀ l : List Nat, c ∈ l →
      (l.dropWhile (fun y => y ≠ c)).head? = some c := by
  intro l
  induction l with
  | nil => intro h; cases h
  | cons a t ih =>
    intro h
    by_cases hac : a = c
    · subst hac
      rw [List.dropWhile_cons]
      simp
    · rw [List.dropWhile_cons, if_pos (by simp [hac])]
      apply ih
      rcases List.mem_cons.mp h with h1 | h1
      · exact absurd h1.symm hac
      · exact h1

theorem dropWhile_isSuffix (p : Nat → Bool) :
    ∀ l : List Nat, l.dropWhile p <:+ l := by
  intro l
  induction l with
  | nil => exact List.suffix_rfl
  | cons a t ih =>
    rw [List.dropWhile_cons]
    by_cases hp : p a = true
    · rw [if_pos hp]
      exact ih.trans (List.suffix_cons a t)
    · rw [if_neg hp]

theorem suffix_eq_of_head_mem {res : List Nat} {a : Nat} {t : List Nat}
    (hsuf : res <:+ a :: t) (hnd : (a :: t).Nodup) (ha : a ∈ res) :
    res = a :: t := by
  rcases List.suffix_cons_iff.mp hsuf with h | h
  · exact h
  · have : a ∈ t := h.sublist.subset ha
    rw [List.nodup_cons] at hnd
    exact absurd this hnd.1

theorem getLast?_of_suffix {res vis : List Nat} (hsuf : res <:+ vis)
    (hne : res ≠ []) : vis.getLast? = res.getLast? := by
  obtain ⟨t0, rfl⟩ := hsuf
  rw [List.getLast?_append]
  rw [List.getLast?_eq_getLast_of_ne_nil hne]
  rfl

theorem find_children_nil (G : GState) (fuel : Nat) (vis : List Nat) :
    find_children G fuel vis [] = [] := by
  rw [find_children]

theorem find_children_cons (G : GState) (fuel : Nat) (vis : List Nat)
    (c : Nat) (rest : List Nat) :
    find_children G fuel vis (c :: rest)
      = if c ∈ vis then vis.dropWhile (fun y => y ≠ c)
        else
          let l := find_loop_fuel G fuel c vis
          if l = [] then find_children G fuel vis rest else l := by
  rw [find_children]

theorem find_loop_fuel_zero (G : GState) (cert : Nat) (vis : List Nat) :
    find_loop_fuel G 0 cert vis = [] := by
  rw [find_loop_fuel]

theorem find_loop_fuel_succ (G : GState) (fuel : Nat) (cert : Nat)
    (vis : List Nat) :
    find_loop_fuel G (fuel + 1) cert vis
      = find_children G fuel (vis ++ [cert]) (childrenOf G cert) := by
  rw [find_loop_fuel]

theorem find_children_sound (G : GState) (Q : Nat → Prop)
    (HQ : ∀ i, ∀ j ∈ childrenOf G i, Q j) (s : Nat) (fuel : Nat)
    (hS1 : ∀ cert vis,
      List.Chain' (gstep G) (vis ++ [cert]) →
      (vis ++ [cert]).Nodup →
      (∀ x ∈ (vis ++ [cert]).tail, Q x) →
      (∀ x ∈ vis ++ [cert], Reach G s x) →
      find_loop_fuel G fuel cert vis ≠ [] →
      cycleList G (find_loop_fuel G fuel cert vis) ∧
        (find_loop_fuel G fuel cert vis).Nodup ∧
        (∀ x ∈ find_loop_fuel G fuel cert vis, Q x ∧ Reach G s x)) :
    ∀ (cs vis : List Nat),
      vis ≠ [] →
      List.Chain' (gstep G) vis →
      vis.Nodup →
      (∀ x ∈ vis.tail, Q x) →
      (∀ x ∈ vis, Reach G s x) →
      (∀ c ∈ cs, ∀ b ∈ vis.getLast?, gstep G b c) →
      find_children G fuel vis cs ≠ [] →
      cycleList G (find_children G fuel vis cs) ∧
        (find_children G fuel vis cs).Nodup ∧
        (∀ x ∈ find_children G fuel vis cs, Q x ∧ Reach G s x) := by
  intro cs
  induction cs with
  | nil =>
    intro vis _ _ _ _ _ _ hne
    rw [find_children_nil] at hne
    exact absurd rfl hne
  | cons c rest ih =>
    intro vis hvne hchain hnd htq hreach hcs hne
    rw [find_children_cons] at hne ⊢
    by_cases hcv : c ∈ vis
    · rw [if_pos hcv] at hne ⊢
      have hsuf : vis.dropWhile (fun y => y ≠ c) <:+ vis := dropWhile_isSuffix _ vis
      have hhead : (vis.dropWhile (fun y => y ≠ c)).head? = some c :=
        head?_dropWhile_ne c vis hcv
      rcases hdw : vis.dropWhile (fun y => y ≠ c) with _ | ⟨a, rt⟩
      · rw [hdw] at hhead
        cases hhead
      · rw [hdw] at hhead hsuf
        have hac : a = c := by
          rw [List.head?_cons] at hhead
          injection hhead
        subst hac
        have hglast : vis.getLast? = (a :: rt).getLast? :=
          getLast?_of_suffix hsuf (List.cons_ne_nil _ _)
        refine ⟨⟨?_, ?_⟩, ?_, ?_⟩
        · have hch : List.Chain' (gstep G) (a :: rt) := hchain.suffix hsuf
          exact hch
        · intro b hb
          refine hcs a (List.mem_cons_self _ _) b ?_
          rw [hglast]
          exact hb
        · exact List.Nodup.sublist hsuf.sublist hnd
        · intro x hx
          have hxvis : x ∈ vis := hsuf.sublist.subset hx
          refine ⟨?_, hreach x hxvis⟩
          have hQa : Q a := by
            have hlst : vis.getLast? = some (vis.getLast hvne) :=
              List.getLast?_eq_getLast_of_ne_nil hvne
            exact HQ _ a (hcs a (List.mem_cons_self _ _) _ hlst)
          rcases vis with _ | ⟨vh, vt⟩
          · exact absurd rfl hvne
          · rcases List.mem_cons.mp hxvis with rfl | hxt
            · have hres : a :: rt = x :: vt :=
                suffix_eq_of_head_mem hsuf hnd hx
              have : a = x := by injection hres
              rw [← this]
              exact hQa
            · exact htq x hxt
    · rw [if_neg hcv] at hne ⊢
      have hlst : vis.getLast? = some (vis.getLast hvne) :=
        List.getLast?_eq_getLast_of_ne_nil hvne
      have hedge : gstep G (vis.getLast hvne) c :=
        hcs c (List.mem_cons_self _ _) _ hlst
      have hQc : Q c := HQ _ c hedge
      have hreachc : Reach G s c :=
        Relation.ReflTransGen.tail (hreach _ (List.getLast_mem hvne)) hedge
      have h1 : List.Chain' (gstep G) (vis ++ [c]) := by
        rw [List.chain'_append]
        refine ⟨hchain, List.chain'_singleton _, ?_⟩
        intro x hx y hy
        rw [List.head?_cons] at hy
        injection hy with hy
        subst hy
        rw [hlst] at hx
        injection hx with hx
        subst hx
        exact hedge
      have h2 : (vis ++ [c]).Nodup := by
        rw [List.nodup_append]
        refine ⟨hnd, List.nodup_singleton _, ?_⟩
        intro x hx hx2
        rw [List.mem_singleton] at hx2
        subst hx2
        exact hcv hx
      have h3 : ∀ x ∈ (vis ++ [c]).tail, Q x := by
        rcases vis with _ | ⟨vh, vt⟩
        · exact absurd rfl hvne
        · intro x hx
          rw [List.cons_append, List.tail_cons] at hx
          rcases List.mem_append.mp hx with hxt | hxc
          · exact htq x hxt
          · rw [List.mem_singleton] at hxc
            subst hxc
            exact hQc
      have h4 : ∀ x ∈ vis ++ [c], Reach G s x := by
        intro x hx
        rcases List.mem_append.mp hx with hxv | hxc
        · exact hreach x hxv
        · rw [List.mem_singleton] at hxc
          subst hxc
          exact hreachc
      by_cases hl : find_loop_fuel G fuel c vis = []
      · rw [if_pos hl] at hne ⊢
        exact ih vis hvne hchain hnd htq hreach
          (fun c2 hc2 => hcs c2 (List.mem_cons_of_mem _ hc2)) hne
      · rw [if_neg hl] at hne ⊢
        exact hS1 c vis h1 h2 h3 h4 hl

theorem find_loop_fuel_sound (G : GState) (Q : Nat → Prop)
    (HQ : ∀ i, ∀ j ∈ childrenOf G i, Q j) (s : Nat) :
    ∀ (fuel : Nat) (cert : Nat) (vis : List Nat),
      List.Chain' (gstep G) (vis ++ [cert]) →
      (vis ++ [cert]).Nodup →
      (∀ x ∈ (vis ++ [cert]).tail, Q x) →
      (∀ x ∈ vis ++ [cert], Reach G s x) →
      find_loop_fuel G fuel cert vis ≠ [] →
      cycleList G (find_loop_fuel G fuel cert vis) ∧
        (find_loop_fuel G fuel cert vis).Nodup ∧
        (∀ x ∈ find_loop_fuel G fuel cert vis, Q x ∧ Reach G s x) := by
  intro fuel
  induction fuel with
  | zero =>
    intro cert vis _ _ _ _ hne
    rw [find_loop_fuel_zero] at hne
    exact absurd rfl hne
  | succ f ihf =>
    intro cert vis hchain hnd htq hreach hne
    rw [find_loop_fuel_succ] at hne ⊢
    refine find_children_sound G Q HQ s f ihf (childrenOf G cert) (vis ++ [cert])
      (by simp) hchain hnd htq hreach ?_ hne
    intro c hc b hb
    rw [List.getLast?_concat] at hb
    injection hb with hb
    subst hb
    exact hc

theorem find_loop_sound (G : GState) (Q : Nat → Prop)
    (HQ : ∀ i, ∀ j ∈ childrenOf G i, Q j) (start : Nat)
    (hne : find_loop G start ≠ []) :
    cycleList G (find_loop G start) ∧ (find_loop G start).Nodup ∧
      (∀ x ∈ find_loop G start, Q x ∧ Reach G start x) := by
  unfold find_loop at hne ⊢
  refine find_loop_fuel_sound G Q HQ start _ start [] (by simp) (by simp)
    (by simp) ?_ hne
  intro x hx
  rw [List.nil_append, List.mem_singleton] at hx
  subst hx
  exact Relation.ReflTransGen.refl

theorem find_children_eq_nil (G : GState) (fuel : Nat) (vis : List Nat) :
    ∀ cs, find_children G fuel vis cs = [] →
      ∀ c ∈ cs, c ∉ vis ∧ find_loop_fuel G fuel c vis = [] := by
  intro cs
  induction cs with
  | nil =>
    intro _ c hc
    cases hc
  | cons c rest ih =>
    intro hnil c2 hc2
    rw [find_children_cons] at hnil
    by_cases hcv : c ∈ vis
    · rw [if_pos hcv] at hnil
      have hh := head?_dropWhile_ne c vis hcv
      rw [hnil] at hh
      cases hh
    · rw [if_neg hcv] at hnil
      by_cases hl : find_loop_fuel G fuel c vis = []
      · rw [if_pos hl] at hnil
        rcases List.mem_cons.mp hc2 with rfl | hc2
        · exact ⟨hcv, hl⟩
        · exact ih hnil c2 hc2
      · rw [if_neg hl] at hnil
        exact absurd hnil hl

theorem nodup_bounded_length_le (n : Nat) (l : List Nat)
    (hnd : l.Nodup) (hb : ∀ x ∈ l, x < n) : l.length ≤ n := by
  have hsub : l ⊆ List.range n := by
    intro x hx
    rw [List.mem_range]
    exact hb x hx
  have := (List.subperm_of_subset hnd hsub).length_le
  rwa [List.length_range] at this

theorem find_loop_empty_step (G : GState)
    (_HW : ∀ i, ∀ j ∈ childrenOf G i, j < G.length) :
    ∀ (fuel cert : Nat) (vis : List Nat),
      vis.Nodup → (∀ x ∈ vis, x < G.length) → cert < G.length → cert ∉ vis →
      G.length + 1 ≤ fuel + vis.length →
      find_loop_fuel G fuel cert vis = [] →
      ∀ w ∈ childrenOf G cert,
        w ∉ vis ++ [cert] ∧ find_loop_fuel G (fuel - 1) w (vis ++ [cert]) = [] := by
  intro fuel cert vis hnd hb hcert hcv hfuel hnil w hw
  have hvlen : vis.length ≤ G.length := nodup_bounded_length_le _ vis hnd hb
  rcases fuel with _ | f
  · omega
  · rw [find_loop_fuel_succ] at hnil
    have := find_children_eq_nil G f (vis ++ [cert]) (childrenOf G cert) hnil w hw
    simpa using this

theorem find_loop_empty_walk (G : GState)
    (HW : ∀ i, ∀ j ∈ childrenOf G i, j < G.length) :
    ∀ (l : List Nat) (fuel cert : Nat) (vis : List Nat),
      vis.Nodup → (∀ x ∈ vis, x < G.length) → cert < G.length → cert ∉ vis →
      G.length + 1 ≤ fuel + vis.length →
      find_loop_fuel G fuel cert vis = [] →
      List.Chain (gstep G) cert l →
      (vis ++ cert :: l).Nodup := by
  intro l
  induction l with
  | nil =>
    intro fuel cert vis hnd hb hc hcv hf hnil _
    rw [List.nodup_append]
    refine ⟨hnd, List.nodup_singleton _, ?_⟩
    intro x hx hx2
    rw [List.mem_singleton] at hx2
    subst hx2
    exact hcv hx
  | cons w l ih =>
    intro fuel cert vis hnd hb hc hcv hf hnil hchain
    cases hchain with
    | cons hw hchain =>
      have hstep := find_loop_empty_step G HW fuel cert vis hnd hb hc hcv hf hnil w hw
      have hw_lt : w < G.length := HW cert w hw
      have hvlen : vis.length ≤ G.length := nodup_bounded_length_le _ vis hnd hb
      have hnd2 : (vis ++ [cert]).Nodup := by
        rw [List.nodup_append]
        refine ⟨hnd, List.nodup_singleton _, ?_⟩
        intro x hx hx2
        rw [List.mem_singleton] at hx2
        subst hx2
        exact hcv hx
      have hb2 : ∀ x ∈ vis ++ [cert], x < G.length := by
        intro x hx
        rcases List.mem_append.mp hx with hx | hx
        · exact hb x hx
        · rw [List.mem_singleton] at hx
          subst hx
          exact hc
      have hres := ih (fuel - 1) w (vis ++ [cert]) hnd2 hb2 hw_lt hstep.1
        (by rw [List.length_append, List.length_singleton]; omega) hstep.2 hchain
      rw [List.append_assoc] at hres
      simpa using hres

theorem chain_append_one {R : Nat → Nat → Prop} :
    ∀ (l : List Nat) (a b : Nat), List.Chain R a l →
      (∀ x ∈ (a :: l).getLast?, R x b) → List.Chain R a (l ++ [b]) := by
  intro l
  induction l with
  | nil =>
    intro a b _ hr
    exact List.Chain.cons (hr a rfl) List.Chain.nil
  | cons c t ih =>
    intro a b hchain hr
    cases hchain with
    | cons hac hct =>
      refine List.Chain.cons hac (ih c b hct ?_)
      intro x hx
      apply hr
      rw [List.getLast?_cons_cons]
      exact hx

theorem wf_children_all (g : GState) (h : wf_children g) :
    ∀ i, ∀ j ∈ childrenOf g i, j < g.length := by
  intro i j hj
  by_cases hi : i < g.length
  · exact h i hi j hj
  · rw [childrenOf_oob g i (Nat.le_of_not_lt hi)] at hj
    cases hj

theorem no_self_child_all (g : GState) (h : no_self_child g) :
    ∀ i, i ∉ childrenOf g i := by
  intro i hj
  by_cases hi : i < g.length
  · exact h i hi hj
  · rw [childrenOf_oob g i (Nat.le_of_not_lt hi)] at hj
    cases hj

theorem find_loop_empty_no_cycle (G : GState)
    (HW : wf_children G) (start : Nat) (hstart : start < G.length)
    (hnil : find_loop G start = []) :
    ¬ ∃ v, Reach G start v ∧ Relation.TransGen (gstep G) v v := by
  rintro ⟨v, hrv, hcyc⟩
  obtain ⟨l1, hc1, hl1⟩ := List.exists_chain_of_relationReflTransGen hrv
  rw [Relation.TransGen.head'_iff] at hcyc
  obtain ⟨w, hvw, hwv⟩ := hcyc
  obtain ⟨l2, hc2, hl2⟩ := List.exists_chain_of_relationReflTransGen hwv
  have hchain : List.Chain (gstep G) start (l1 ++ w :: l2) := by
    rw [List.chain_split]
    constructor
    · apply chain_append_one l1 start w hc1
      intro x hx
      have hgl : (start :: l1).getLast? = some ((start :: l1).getLast (by simp)) :=
        List.getLast?_eq_getLast_of_ne_nil (by simp)
      rw [hgl] at hx
      injection hx with hx
      subst hx
      rw [hl1]
      exact hvw
    · exact hc2
  unfold find_loop at hnil
  have hnd := find_loop_empty_walk G (wf_children_all G HW) (l1 ++ w :: l2)
    (G.length + 1) start [] List.nodup_nil (by intro x hx; cases hx) hstart
    (by intro h; cases h) (by simp) hnil hchain
  rw [List.nil_append, ← List.cons_append] at hnd
  rw [List.nodup_append] at hnd
  have hv1 : v ∈ start :: l1 := by
    rw [← hl1]
    exact List.getLast_mem _
  have hv2 : v ∈ w :: l2 := by
    rw [← hl2]
    exact List.getLast_mem _
  exact hnd.2.2 hv1 hv2

theorem cycleList_length_ge_two (G : GState) (hns : ∀ i, i ∉ childrenOf G i)
    (l : List Nat) (hcl : cycleList G l) : 2 ≤ l.length := by
  cases l with
  | nil => cases hcl
  | cons a t =>
    cases t with
    | nil =>
      obtain ⟨-, hb⟩ := hcl
      exact absurd (hb a rfl) (hns a)
    | cons b t =>
      rw [List.length_cons, List.length_cons]
      omega

/-- **C9.** The Cycle Detector is sound and complete: a non-empty result is
a genuine directed cycle of the live graph (`cycleList`: each successor in
the list is a child of its predecessor and the head is a child of the
last), and the result is non-empty exactly when some directed cycle is
reachable from the start node along children edges. -/
theorem find_loop_correct (g : GState) (start : Nat)
    (hwf : wf_children g) (hstart : start < g.length) :
    (find_loop g start ≠ [] → cycleList g (find_loop g start)) ∧
    (find_loop g start ≠ [] ↔
      ∃ v, Reach g start v ∧ Relation.TransGen (gstep g) v v) := by
  have hQ := wf_children_all g hwf
  constructor
  · intro hne
    exact (find_loop_sound g (fun x => x < g.length) hQ start hne).1
  · constructor
    · intro hne
      obtain ⟨hcl, hnd, hall⟩ :=
        find_loop_sound g (fun x => x < g.length) hQ start hne
      cases hres : find_loop g start with
      | nil => exact absurd hres hne
      | cons a t =>
        rw [hres] at hcl hall
        refine ⟨a, (hall a (List.mem_cons_self _ _)).2, ?_⟩
        obtain ⟨hchain, hback⟩ := hcl
        have hrt : Reach g a ((a :: t).getLast (List.cons_ne_nil _ _)) :=
          List.relationReflTransGen_of_exists_chain t hchain rfl
        refine Relation.TransGen.tail' hrt (hback _ ?_)
        rw [List.getLast?_eq_getLast_of_ne_nil (List.cons_ne_nil _ _)]
        rfl
    · intro hcyc
      by_contra hn
      exact find_loop_empty_no_cycle g hwf start hstart hn hcyc

/-- Closed instance of `find_loop_correct`: on the two-node graph `exH`
with the mutual edges `0 ↔ 1`, the detector starting at node 0 returns a
genuine cycle. -/
theorem find_loop_exH_eval : find_loop exH 0 = [0, 1] := by
  have h3 : find_loop_fuel exH 2 1 [0] = [0, 1] := by
    rw [show (2 : Nat) = 1 + 1 from rfl, find_loop_fuel_succ]
    have h2 : childrenOf exH 1 = [0] := rfl
    rw [h2]
    rw [show ([0] ++ [1] : List Nat) = [0, 1] from rfl]
    rw [find_children_cons, if_pos (by decide)]
    decide
  unfold find_loop
  show find_loop_fuel exH 3 0 [] = [0, 1]
  rw [show (3 : Nat) = 2 + 1 from rfl, find_loop_fuel_succ]
  have h1 : childrenOf exH 0 = [1] := rfl
  rw [h1, List.nil_append, find_children_cons, if_neg (by decide)]
  simp only [h3]
  decide

theorem find_loop_correct_witness :
    cycleList exH (find_loop exH 0) :=
  (find_loop_correct exH 0 (by unfold wf_children; decide) (by decide)).1
    (by rw [find_loop_exH_eval]; decide)

theorem sum_map_set (h : NodeLinks → Nat) :
    ∀ (g : GState) (i : Nat) (v : NodeLinks), i < g.length →
      ((g.set i v).map h).sum + h (g.getD i default)
        = (g.map h).sum + h v := by
  intro g
  induction g with
  | nil => intro i v hi; cases hi
  | cons n t ih =>
    intro i v hi
    cases i with
    | zero =>
      simp only [List.set_cons_zero, List.map_cons, List.sum_cons, List.getD_cons_zero]
      omega
    | succ i =>
      rw [List.length_cons] at hi
      have := ih i v (Nat.lt_of_succ_lt_succ hi)
      simp only [List.set_cons_succ, List.map_cons, List.sum_cons, List.getD_cons_succ]
      omega

theorem edgeCount_modifyAt_parents (g : GState) (i : Nat)
    (hp : NodeLinks → List Nat) :
    edgeCount (modifyAt g i (fun n => { n with parents := hp n })) = edgeCount g := by
  unfold edgeCount modifyAt
  by_cases hi : i < g.length
  · have hs := sum_map_set (fun n => n.children.length) g i
      { g.getD i default with parents := hp (g.getD i default) } hi
    dsimp only at hs ⊢
    omega
  · rw [List.set_eq_of_length_le (Nat.le_of_not_lt hi)]

theorem setErase_length_le (x : Nat) (l : List Nat) :
    (setErase x l).length ≤ l.length :=
  List.length_filter_le _ l

theorem setErase_length_lt (x : Nat) (l : List Nat) (hx : x ∈ l) :
    (setErase x l).length < l.length := by
  unfold setErase
  rw [List.length_filter_lt_length_iff_exists]
  exact ⟨x, hx, by simp⟩

theorem edgeCount_delEdge_le (g : GState) (p c : Nat) :
    edgeCount (delEdge g p c) ≤ edgeCount g := by
  unfold delEdge
  rw [edgeCount_modifyAt_parents]
  unfold edgeCount modifyAt
  by_cases hp : p < g.length
  · have hs := sum_map_set (fun n => n.children.length) g p
      { g.getD p default with children := setErase c (g.getD p default).children } hp
    have hle : (setErase c (g.getD p default).children).length
        ≤ (g.getD p default).children.length := setErase_length_le _ _
    dsimp only at hs ⊢
    omega
  · rw [List.set_eq_of_length_le (Nat.le_of_not_lt hp)]

theorem edgeCount_delEdge_lt (g : GState) (p c : Nat)
    (hp : p < g.length) (hc : c ∈ childrenOf g p) :
    edgeCount (delEdge g p c) < edgeCount g := by
  unfold delEdge
  rw [edgeCount_modifyAt_parents]
  unfold edgeCount modifyAt
  have hs := sum_map_set (fun n => n.children.length) g p
    { g.getD p default with children := setErase c (g.getD p default).children } hp
  have hlt : (setErase c (g.getD p default).children).length
      < (g.getD p default).children.length := setErase_length_lt _ _ hc
  dsimp only at hs ⊢
  omega

theorem argmaxIdx_lt (f : Nat → Nat) :
    ∀ (l : List Nat), l ≠ [] → argmaxIdx f l < l.length := by
  intro l hne
  cases l with
  | nil => exact absurd rfl hne
  | cons x xs =>
    have hgen : ∀ (ys : List Nat) (b1 bv bc : Nat), b1 < bc →
        (ys.foldl
          (fun (b : Nat × Nat × Nat) y =>
            if f y > b.2.1 then (b.2.2, f y, b.2.2 + 1) else (b.1, b.2.1, b.2.2 + 1))
          (b1, bv, bc)).1 < (ys.foldl
          (fun (b : Nat × Nat × Nat) y =>
            if f y > b.2.1 then (b.2.2, f y, b.2.2 + 1) else (b.1, b.2.1, b.2.2 + 1))
          (b1, bv, bc)).2.2 ∧
        (ys.foldl
          (fun (b : Nat × Nat × Nat) y =>
            if f y > b.2.1 then (b.2.2, f y, b.2.2 + 1) else (b.1, b.2.1, b.2.2 + 1))
          (b1, bv, bc)).2.2 = bc + ys.length := by
      intro ys
      induction ys with
      | nil => intro b1 bv bc hb; exact ⟨hb, rfl⟩
      | cons y ys ih =>
        intro b1 bv bc hb
        rw [List.foldl_cons]
        dsimp only
        by_cases hy : f y > bv
        · rw [if_pos hy]
          have := ih bc (f y) (bc + 1) (by omega)
          rw [List.length_cons]
          exact ⟨this.1, by rw [this.2]; omega⟩
        · rw [if_neg hy]
          have := ih b1 bv (bc + 1) (by omega)
          rw [List.length_cons]
          exact ⟨this.1, by rw [this.2]; omega⟩
    have h := hgen xs 0 (f x) 1 (by omega)
    simp only [argmaxIdx]
    rw [List.length_cons]
    omega

theorem getD_mem (l : List Nat) (i : Nat) (hi : i < l.length) :
    l.getD i 0 ∈ l := by
  rw [List.getD_eq_getElem l 0 hi]
  exact List.getElem_mem hi

theorem cycleList_step (g : GState) (l : List Nat) (hcl : cycleList g l)
    (k : Nat) (hk : k + 1 < l.length) :
    gstep g (l.getD k 0) (l.getD (k + 1) 0) := by
  cases l with
  | nil => cases hcl
  | cons a t =>
    obtain ⟨hchain, -⟩ := hcl
    have hch : List.Chain' (gstep g) (a :: t) := hchain
    rw [List.chain'_iff_get] at hch
    have hstep := hch k (by rw [List.length_cons] at hk ⊢; omega)
    rw [List.getD_eq_getElem _ _ (by omega), List.getD_eq_getElem _ _ hk]
    simpa [List.get_eq_getElem] using hstep

theorem cycleList_back (g : GState) (l : List Nat) (hcl : cycleList g l) :
    gstep g (l.getD (l.length - 1) 0) (l.getD 0 0) := by
  cases l with
  | nil => cases hcl
  | cons a t =>
    obtain ⟨-, hb⟩ := hcl
    have hgl : (a :: t).getLast? = some ((a :: t).getLast (List.cons_ne_nil _ _)) :=
      List.getLast?_eq_getLast_of_ne_nil _
    have hback := hb _ hgl
    rw [List.getLast_eq_getElem] at hback
    rw [List.getD_eq_getElem _ _ (by rw [List.length_cons]; omega),
      List.getD_eq_getElem _ _ (by rw [List.length_cons]; omega)]
    exact hback

theorem getLastD_eq_getD (a : Nat) (t : List Nat) :
    ((a :: t).getLast?).getD 0 = (a :: t).getD ((a :: t).length - 1) 0 := by
  rw [List.getLast?_eq_getLast_of_ne_nil (List.cons_ne_nil a t), Option.getD_some,
    List.getLast_eq_getElem, List.getD_eq_getElem _ _ (by rw [List.length_cons]; omega)]

theorem break_loop_edgeCount_lt (g : GState) (l : List Nat)
    (hcl : cycleList g l) (hb : ∀ x ∈ l, x < g.length) :
    edgeCount (break_loop g l) < edgeCount g := by
  cases l with
  | nil => cases hcl
  | cons a t =>
    rw [break_loop]
    dsimp only
    set t1 := argmaxIdx (fun x => (parentsOf g x).length) (a :: t) with ht1
    have ht1lt : t1 < (a :: t).length := argmaxIdx_lt _ _ (List.cons_ne_nil a t)
    by_cases h1 : (parentsOf g ((a :: t).getD t1 0)).length > 1
    · rw [if_pos h1]
      by_cases ht10 : t1 = 0
      · rw [if_pos ht10, ht10, getLastD_eq_getD]
        exact edgeCount_delEdge_lt _ _ _
          (hb _ (getD_mem _ _ (by rw [List.length_cons]; omega)))
          (cycleList_back g (a :: t) hcl)
      · rw [if_neg ht10]
        have hedge := cycleList_step g (a :: t) hcl (t1 - 1) (by omega)
        have heq : t1 - 1 + 1 = t1 := by omega
        rw [heq] at hedge
        exact edgeCount_delEdge_lt _ _ _
          (hb _ (getD_mem _ _ (by omega))) hedge
    · rw [if_neg h1]
      set t2 := argmaxIdx (fun x => (childrenOf g x).length) (a :: t) with ht2
      have ht2lt : t2 < (a :: t).length := argmaxIdx_lt _ _ (List.cons_ne_nil a t)
      by_cases h2 : (childrenOf g ((a :: t).getD t2 0)).length > 1
      · rw [if_pos h2]
        refine Nat.lt_of_le_of_lt (edgeCount_delEdge_le _ _ _) ?_
        by_cases ht2e : t2 + 1 = (a :: t).length
        · rw [if_pos ht2e]
          have heq : t2 = (a :: t).length - 1 := by omega
          rw [heq]
          have hedge := cycleList_back g (a :: t) hcl
          have h0 : (a :: t).getD 0 0 = a := rfl
          rw [h0] at hedge
          exact edgeCount_delEdge_lt _ _ _
            (hb _ (getD_mem _ _ (by omega))) hedge
        · rw [if_neg ht2e]
          exact edgeCount_delEdge_lt _ _ _
            (hb _ (getD_mem _ _ ht2lt))
            (cycleList_step g (a :: t) hcl t2 (by omega))
      · rw [if_neg h2]
        rw [getLastD_eq_getD]
        have hedge := cycleList_back g (a :: t) hcl
        have h0 : (a :: t).getD 0 0 = a := rfl
        rw [h0] at hedge
        exact edgeCount_delEdge_lt _ _ _
          (hb _ (getD_mem _ _ (by rw [List.length_cons]; omega))) hedge

theorem childrenOf_delEdge_subset (g : GState) (p c x y : Nat)
    (hy : y ∈ childrenOf (delEdge g p c) x) : y ∈ childrenOf g x :=
  ((mem_childrenOf_delEdge g p c x y).mp hy).1

theorem childrenOf_break_loop_subset (g : GState) (l : List Nat) (x y : Nat)
    (hy : y ∈ childrenOf (break_loop g l) x) : y ∈ childrenOf g x := by
  cases l with
  | nil => rwa [break_loop] at hy
  | cons a t =>
    rw [break_loop] at hy
    dsimp only at hy
    split_ifs at hy
    all_goals
      first
        | exact childrenOf_delEdge_subset _ _ _ _ _ hy
        | exact childrenOf_delEdge_subset _ _ _ _ _
            (childrenOf_delEdge_subset _ _ _ _ _ hy)

theorem edgeCount_break_loop_le (g : GState) (l : List Nat) :
    edgeCount (break_loop g l) ≤ edgeCount g := by
  cases l with
  | nil => rw [break_loop]
  | cons a t =>
    rw [break_loop]
    dsimp only
    split_ifs
    all_goals
      first
        | exact edgeCount_delEdge_le _ _ _
        | exact Nat.le_trans (edgeCount_delEdge_le _ _ _) (edgeCount_delEdge_le _ _ _)

theorem wf_children_break_loop (g : GState) (l : List Nat)
    (h : wf_children g) : wf_children (break_loop g l) := by
  intro i hi j hj
  rw [break_loop_length] at hi ⊢
  exact h i hi j (childrenOf_break_loop_subset g l i j hj)

theorem no_self_child_break_loop (g : GState) (l : List Nat)
    (h : no_self_child g) : no_self_child (break_loop g l) := by
  intro i hi hj
  rw [break_loop_length] at hi
  exact h i hi (childrenOf_break_loop_subset g l i i hj)

theorem childrenOf_append_lt (g : GState) (snap : NodeLinks) (x : Nat)
    (hx : x < g.length) : childrenOf (g ++ [snap]) x = childrenOf g x := by
  unfold childrenOf
  rw [List.getD_eq_getElem?_getD, List.getD_eq_getElem?_getD,
    List.getElem?_append_left hx]

theorem childrenOf_append_self (g : GState) (snap : NodeLinks) :
    childrenOf (g ++ [snap]) g.length = snap.children := by
  unfold childrenOf
  rw [List.getD_eq_getElem?_getD, List.getElem?_append_right (Nat.le_refl _)]
  simp

theorem append_children_bound (g : GState) (snap : NodeLinks)
    (hwf : wf_children g) (hsnap : ∀ j ∈ snap.children, j < g.length) :
    ∀ i, ∀ j ∈ childrenOf (g ++ [snap]) i, j < g.length := by
  intro i j hj
  rcases Nat.lt_trichotomy i g.length with hi | hi | hi
  · rw [childrenOf_append_lt g snap i hi] at hj
    exact wf_children_all g hwf i j hj
  · subst hi
    rw [childrenOf_append_self] at hj
    exact hsnap j hj
  · rw [childrenOf_oob _ i (by rw [List.length_append, List.length_singleton]; omega)] at hj
    cases hj

theorem wf_children_append (g : GState) (snap : NodeLinks)
    (hwf : wf_children g) (hsnap : ∀ j ∈ snap.children, j < g.length) :
    wf_children (g ++ [snap]) := by
  intro i _ j hj
  rw [List.length_append, List.length_singleton]
  have := append_children_bound g snap hwf hsnap i j hj
  omega

theorem no_self_child_append (g : GState) (snap : NodeLinks)
    (hns : no_self_child g) (hsnap : ∀ j ∈ snap.children, j < g.length) :
    ∀ i, i ∉ childrenOf (g ++ [snap]) i := by
  intro i hj
  rcases Nat.lt_trichotomy i g.length with hi | hi | hi
  · rw [childrenOf_append_lt g snap i hi] at hj
    exact no_self_child_all g hns i hj
  · subst hi
    rw [childrenOf_append_self] at hj
    exact absurd (hsnap _ hj) (Nat.lt_irrefl _)
  · rw [childrenOf_oob _ i (by rw [List.length_append, List.length_singleton]; omega)] at hj
    cases hj

theorem chain_congr_mem {R S : Nat → Nat → Prop} :
    ∀ (t : List Nat) (a : Nat), (∀ x ∈ a :: t, ∀ y, R x y → S x y) →
      List.Chain R a t → List.Chain S a t := by
  intro t
  induction t with
  | nil => intro a _ _; exact List.Chain.nil
  | cons b t ih =>
    intro a h hchain
    cases hchain with
    | cons hab hbt =>
      refine List.Chain.cons (h a (List.mem_cons_self _ _) b hab) ?_
      refine ih b ?_ hbt
      intro x hx
      exact h x (List.mem_cons_of_mem _ hx)

theorem process_node_found_cycle (g : GState) (snap : NodeLinks)
    (hwf : wf_children g)
    (hsnap : ∀ j ∈ snap.children, j < g.length)
    (hl : find_loop (g ++ [snap]) g.length ≠ []) :
    cycleList g (find_loop (g ++ [snap]) g.length) ∧
      (∀ x ∈ find_loop (g ++ [snap]) g.length, x < g.length) := by
  obtain ⟨hcl, hnd, hall⟩ := find_loop_sound (g ++ [snap]) (fun x => x < g.length)
    (append_children_bound g snap hwf hsnap) g.length hl
  have hbound : ∀ x ∈ find_loop (g ++ [snap]) g.length, x < g.length :=
    fun x hx => (hall x hx).1
  refine ⟨?_, hbound⟩
  cases hres : find_loop (g ++ [snap]) g.length with
  | nil => exact absurd hres hl
  | cons a t =>
    rw [hres] at hcl hbound
    obtain ⟨hchain, hback⟩ := hcl
    have htrans : ∀ x ∈ a :: t, ∀ y, gstep (g ++ [snap]) x y → gstep g x y := by
      intro x hx y hy
      unfold gstep at hy ⊢
      rwa [childrenOf_append_lt g snap x (hbound x hx)] at hy
    refine ⟨chain_congr_mem t a htrans hchain, ?_⟩
    intro b hb
    have hbmem : b ∈ a :: t := by
      obtain ⟨hne, heq⟩ := List.mem_getLast?_eq_getLast hb
      rw [heq]
      exact List.getLast_mem _
    exact htrans b hbmem a (hback b hb)

theorem process_node_step_lt (g : GState) (snap : NodeLinks)
    (hwf : wf_children g)
    (hsnap : ∀ j ∈ snap.children, j < g.length)
    (hl : find_loop (g ++ [snap]) g.length ≠ []) :
    edgeCount (break_loop g (find_loop (g ++ [snap]) g.length)) < edgeCount g := by
  obtain ⟨hcl, hb⟩ := process_node_found_cycle g snap hwf hsnap hl
  exact break_loop_edgeCount_lt g _ hcl hb

theorem process_node_length (snap : NodeLinks) (fuel : Nat) (g : GState) :
    (process_node snap fuel g).length = g.length := by
  have := process_node_preserve (fun g2 => g2.length = g.length)
    (fun g2 l h => by
      show (break_loop g2 l).length = g.length
      rw [break_loop_length]
      exact h) fuel snap g rfl
  exact this

theorem process_node_children_subset (snap : NodeLinks) (fuel : Nat) (g : GState) :
    ∀ x y, y ∈ childrenOf (process_node snap fuel g) x → y ∈ childrenOf g x := by
  have := process_node_preserve
    (fun g2 => ∀ x y, y ∈ childrenOf g2 x → y ∈ childrenOf g x)
    (fun g2 l h x y hy => h x y (childrenOf_break_loop_subset g2 l x y hy))
    fuel snap g (fun x y hy => hy)
  exact this

theorem process_node_wf (snap : NodeLinks) (fuel : Nat) (g : GState)
    (hwf : wf_children g) : wf_children (process_node snap fuel g) :=
  process_node_preserve wf_children
    (fun g2 l h => wf_children_break_loop g2 l h) fuel snap g hwf

theorem process_node_no_self (snap : NodeLinks) (fuel : Nat) (g : GState)
    (hns : no_self_child g) : no_self_child (process_node snap fuel g) :=
  process_node_preserve no_self_child
    (fun g2 l h => no_self_child_break_loop g2 l h) fuel snap g hns

theorem process_node_terminates (snap : NodeLinks) :
    ∀ (fuel : Nat) (g : GState), edgeCount g < fuel →
      wf_children g → no_self_child g →
      (∀ j ∈ snap.children, j < g.length) →
      find_loop ((process_node snap fuel g) ++ [snap])
        (process_node snap fuel g).length = [] := by
  intro fuel
  induction fuel with
  | zero =>
    intro g hf _ _ _
    omega
  | succ f ih =>
    intro g hf hwf hns hsnap
    rw [process_node]
    by_cases hl : find_loop (g ++ [snap]) g.length = []
    · rw [if_pos hl]
      exact hl
    · rw [if_neg hl]
      have hlt := process_node_step_lt g snap hwf hsnap hl
      refine ih (break_loop g (find_loop (g ++ [snap]) g.length)) (by omega)
        (wf_children_break_loop _ _ hwf) (no_self_child_break_loop _ _ hns) ?_
      rw [break_loop_length]
      exact hsnap

theorem process_node_fuel_irrel (snap : NodeLinks) :
    ∀ (fuel : Nat) (g : GState), edgeCount g < fuel →
      wf_children g → no_self_child g →
      (∀ j ∈ snap.children, j < g.length) →
      process_node snap fuel g = process_node snap (edgeCount g + 1) g := by
  intro fuel
  induction fuel using Nat.strong_induction_on with
  | _ fuel ih =>
    intro g hf hwf hns hsnap
    rcases fuel with _ | f
    · omega
    · rw [process_node]
      conv_rhs => rw [process_node]
      by_cases hl : find_loop (g ++ [snap]) g.length = []
      · rw [if_pos hl, if_pos hl]
      · rw [if_neg hl, if_neg hl]
        have hlt := process_node_step_lt g snap hwf hsnap hl
        set g2 := break_loop g (find_loop (g ++ [snap]) g.length) with hg2
        have hwf2 : wf_children g2 := wf_children_break_loop _ _ hwf
        have hns2 : no_self_child g2 := no_self_child_break_loop _ _ hns
        have hsnap2 : ∀ j ∈ snap.children, j < g2.length := by
          rw [hg2, break_loop_length]
          exact hsnap
        have h1 : process_node snap f g2 = process_node snap (edgeCount g2 + 1) g2 :=
          ih f (by omega) g2 (by omega) hwf2 hns2 hsnap2
        have h2 : process_node snap (edgeCount g) g2
            = process_node snap (edgeCount g2 + 1) g2 :=
          ih (edgeCount g) (by omega) g2 (by omega) hwf2 hns2 hsnap2
        rw [h1, h2]

theorem transGen_mono_of_subset (g1 g2 : GState)
    (hsub : ∀ x y, y ∈ childrenOf g1 x → y ∈ childrenOf g2 x) (m : Nat)
    (h : Relation.TransGen (gstep g1) m m) :
    Relation.TransGen (gstep g2) m m :=
  Relation.TransGen.mono (fun x y hxy => hsub x y hxy) h

theorem gstep_append_of_gstep (g : GState) (snap : NodeLinks) (x y : Nat)
    (h : gstep g x y) : gstep (g ++ [snap]) x y := by
  unfold gstep at h ⊢
  by_cases hx : x < g.length
  · rwa [childrenOf_append_lt g snap x hx]
  · rw [childrenOf_oob g x (Nat.le_of_not_lt hx)] at h
    cases h

theorem fabl_go_acyclic :
    ∀ (k i : Nat) (g : GState),
      i + k = g.length →
      wf_children g → no_self_child g →
      (∀ m < i, ¬ Relation.TransGen (gstep g) m m) →
      ∀ m, ¬ Relation.TransGen (gstep (fabl_go i k g)) m m := by
  intro k
  induction k with
  | zero =>
    intro i g hik hwf hns hprev m
    rw [fabl_go]
    by_cases hm : m < g.length
    · exact hprev m (by omega)
    · intro hcyc
      obtain ⟨w, hw, -⟩ := Relation.TransGen.head'_iff.mp hcyc
      unfold gstep at hw
      rw [childrenOf_oob g m (Nat.le_of_not_lt hm)] at hw
      cases hw
  | succ k ih =>
    intro i g hik hwf hns hprev
    rw [fabl_go]
    have hi_lt : i < g.length := by omega
    have hsnap : ∀ j ∈ (g.getD i default).children, j < g.length :=
      fun j hj => wf_children_all g hwf i j hj
    set snap := g.getD i default with hsnapdef
    set g2 := process_node snap (edgeCount g + 1) g with hg2
    have hlen2 : g2.length = g.length := process_node_length snap _ g
    have hsub : ∀ x y, y ∈ childrenOf g2 x → y ∈ childrenOf g x :=
      process_node_children_subset snap _ g
    have hwf2 : wf_children g2 := process_node_wf snap _ g hwf
    have hns2 : no_self_child g2 := process_node_no_self snap _ g hns
    refine ih (i + 1) g2 (by omega) hwf2 hns2 ?_
    intro m hm
    rcases Nat.lt_or_ge m i with hmi | hmi
    · intro hcyc
      exact hprev m hmi (transGen_mono_of_subset g2 g hsub m hcyc)
    · have hmeq : m = i := by omega
      subst hmeq
      intro hcyc
      have hpost : find_loop (g2 ++ [snap]) g2.length = [] :=
        process_node_terminates snap (edgeCount g + 1) g (by omega) hwf hns hsnap
      have hsnap2 : ∀ j ∈ snap.children, j < g2.length := by
        rw [hlen2]
        exact hsnap
      have hnoc := find_loop_empty_no_cycle (g2 ++ [snap])
        (wf_children_append g2 snap hwf2 hsnap2) g2.length
        (by rw [List.length_append, List.length_singleton]; omega) hpost
      apply hnoc
      obtain ⟨w, hw, hwm⟩ := Relation.TransGen.head'_iff.mp hcyc
      have hw_snap : gstep (g2 ++ [snap]) g2.length w := by
        unfold gstep
        rw [childrenOf_append_self]
        have : w ∈ childrenOf g2 m := hw
        have hwg : w ∈ childrenOf g m := hsub m w this
        rw [hsnapdef]
        exact hwg
      refine ⟨w, Relation.ReflTransGen.single hw_snap, ?_⟩
      have hcycw : Relation.TransGen (gstep g2) w w :=
        Relation.TransGen.tail' hwm hw
      exact Relation.TransGen.mono
        (fun x y hxy => gstep_append_of_gstep g2 snap x y hxy) hcycw

theorem build_edges_children_bound (verify : Certificate → Certificate → Bool)
    (cs : List Certificate) :
    ∀ x y, y ∈ childrenOf (build_edges verify cs) x →
      x < cs.length ∧ y < cs.length ∧ x ≠ y := by
  intro x y hy
  rw [build_edges_eq_apply_pairs,
    apply_pairs_children verify cs _ _ x y
      (fun q hq => by
        obtain ⟨q1, q2⟩ := q
        rw [emptyState_length]
        rw [mem_pairList] at hq
        omega),
    childrenOf_emptyState] at hy
  rcases hy with hy | ⟨hmem | hmem, -⟩
  · cases hy
  · rw [mem_pairList] at hmem
    omega
  · rw [mem_pairList] at hmem
    omega

theorem build_edges_wf (verify : Certificate → Certificate → Bool)
    (cs : List Certificate) : wf_children (build_edges verify cs) := by
  intro i _ j hj
  rw [(build_edges_symlen verify cs).2]
  exact (build_edges_children_bound verify cs i j hj).2.1

theorem build_edges_no_self (verify : Certificate → Certificate → Bool)
    (cs : List Certificate) : no_self_child (build_edges verify cs) := by
  intro i _ hj
  exact (build_edges_children_bound verify cs i i hj).2.2 rfl

theorem find_and_break_loops_acyclic (g : GState)
    (hwf : wf_children g) (hns : no_self_child g) :
    ∀ m, ¬ Relation.TransGen (gstep (find_and_break_loops g)) m m := by
  unfold find_and_break_loops
  exact fabl_go_acyclic g.length 0 g (Nat.zero_add _) hwf hns
    (fun m hm => absurd hm (Nat.not_lt_zero m))

/-- **C1.** Acyclicity postcondition: for every verifier and every input
collection, after `compute_hierarchy` the children relation of the
resulting linkage state has no directed cycle — following children edges
from any node never returns to that node. -/
theorem compute_hierarchy_acyclic (verify : Certificate → Certificate → Bool)
    (certs : List Certificate) :
    ∀ i, ¬ Relation.TransGen (gstep (compute_hierarchy verify certs).2) i i := by
  intro i
  unfold compute_hierarchy
  dsimp only
  exact find_and_break_loops_acyclic _
    (build_edges_wf verify _) (build_edges_no_self verify _) i

/-- **C7.** Termination content of the repair phase: breaking a genuine
cycle strictly decreases the finite edge count, `break_loop` never
increases it, the whole loop-breaking pass never increases it, and the
`while(1)` loop of `find_and_break_loops` stabilises within `edgeCount`
iterations (the fuel supplied at its call site): any larger fuel produces
the same state, so the per-node repair and the pipeline do finite work. -/
theorem pipeline_termination :
    (∀ g l, cycleList g l → (∀ x ∈ l, x < g.length) →
      edgeCount (break_loop g l) < edgeCount g) ∧
    (∀ g l, edgeCount (break_loop g l) ≤ edgeCount g) ∧
    (∀ g, edgeCount (find_and_break_loops g) ≤ edgeCount g) ∧
    (∀ snap fuel g, edgeCount g < fuel → wf_children g → no_self_child g →
      (∀ j ∈ snap.children, j < g.length) →
      process_node snap fuel g = process_node snap (edgeCount g + 1) g) := by
  refine ⟨break_loop_edgeCount_lt, edgeCount_break_loop_le, ?_,
    fun snap fuel g => process_node_fuel_irrel snap fuel g⟩
  intro g
  exact find_and_break_loops_preserve (fun g2 => edgeCount g2 ≤ edgeCount g)
    (fun g2 l h => Nat.le_trans (edgeCount_break_loop_le g2 l) h) g (Nat.le_refl _)

/-- Closed instance of `pipeline_termination`: breaking the valid 3-cycle
`[0, 1, 2]` of `exG` strictly decreases the edge count. -/
theorem pipeline_termination_witness :
    edgeCount (break_loop exG [0, 1, 2]) < edgeCount exG := by
  apply pipeline_termination.1 exG [0, 1, 2]
  · show List.Chain (gstep exG) 0 [1, 2] ∧
      ∀ b ∈ ([0, 1, 2] : List Nat).getLast?, gstep exG b 0
    refine ⟨?_, ?_⟩
    · refine List.Chain.cons ?_ (List.Chain.cons ?_ List.Chain.nil)
      · exact (by decide : (1 : Nat) ∈ childrenOf exG 0)
      · exact (by decide : (2 : Nat) ∈ childrenOf exG 1)
    · intro b hb
      rw [show ([0, 1, 2] : List Nat).getLast? = some 2 from rfl] at hb
      rw [Option.mem_some_iff] at hb
      subst hb
      exact (by decide : (0 : Nat) ∈ childrenOf exG 2)
  · exact (by decide : ∀ x ∈ ([0, 1, 2] : List Nat), x < exG.length)

/-- **C8.** The checked Cycle Breaker aborts exactly on cycle lists of
fewer than two nodes (the `assert`), and that precondition violation never
arises from the detector: on a well-formed self-loop-free graph every
detector result is either empty or has at least two nodes; every other
rejection path of the core is a total function returning a value. -/
theorem assertion_behaviour :
    (∀ g l, break_loop_checked g l = none ↔ l.length < 2) ∧
    (∀ g start, wf_children g → no_self_child g → start < g.length →
      find_loop g start = [] ∨ 2 ≤ (find_loop g start).length) := by
  constructor
  · intro g l
    unfold break_loop_checked
    split_ifs with h
    · simp [h]
    · simp [h]
  · intro g start hwf hns hstart
    by_cases hl : find_loop g start = []
    · exact Or.inl hl
    · refine Or.inr ?_
      have hcl := (find_loop_sound g (fun x => x < g.length)
        (wf_children_all g hwf) start hl).1
      exact cycleList_length_ge_two g (no_self_child_all g hns) _ hcl

/-- Closed instance of `assertion_behaviour`: on the two-node graph `exH`
the detector result from node 0 is empty or long enough for the assert. -/
theorem assertion_behaviour_witness :
    find_loop exH 0 = [] ∨ 2 ≤ (find_loop exH 0).length :=
  assertion_behaviour.2 exH 0 (by unfold wf_children; decide)
    (by unfold no_self_child; decide) (by decide)
